import Mathlib

/-!
# Verification of the inventory-privacy circuits and the R1CS optimizer

This file gives a shallow embedding, in Lean 4, of the core of the
`inventory-privacy` repository:

* the native inventory data type and its operations
  (`crates/circuits/src/inventory.rs`),
* the per-slot preservation checks of the Withdraw, Deposit and Transfer
  circuits (`withdraw.rs`, `deposit.rs`, `transfer.rs`),
* the 32-bit range-check gadget (`range_check.rs`),
* the quantity lookup and comparison constraints of the ItemExists circuit
  (`item_exists.rs`),
* the constraint-matrix representation and the reduction passes of the
  R1CS optimizer (`crates/r1cs-optimizer/src/constraint.rs` and
  `src/passes/*.rs`).

Machine integers (`u32`, `u64`, `usize`) are modelled as `Nat`; prime-field
elements are modelled by their integer representative, with reductions
`% p` made explicit where field arithmetic can wrap.  Fallible operations on
`&mut self` returning `Result<(), &str>` are modelled as functions returning
the new state together with an optional error string, so that "the inventory
is unchanged on error" is expressible.
-/

namespace InventoryPrivacy

/-! ## Native inventory model (`crates/circuits/src/inventory.rs`) -/

/-- `MAX_ITEM_SLOTS` (inventory.rs line 13): the fixed number of slots. -/
def MAX_ITEM_SLOTS : Nat := 16

/-- `ItemSlot` (inventory.rs): an item id (`u32`) and a quantity (`u64`).
`item_id = 0` means the slot is empty. -/
structure ItemSlot where
  item_id : Nat
  quantity : Nat
deriving DecidableEq

/-- `ItemSlot::default()`: the all-zero slot. -/
def ItemSlot.empty : ItemSlot := ⟨0, 0⟩

instance : Inhabited ItemSlot := ⟨ItemSlot.empty⟩

/-- `Inventory` (inventory.rs): the slot array `[ItemSlot; MAX_ITEM_SLOTS]`,
modelled as a list; theorems that depend on the capacity carry a
`length = MAX_ITEM_SLOTS` hypothesis. -/
abbrev Inventory := List ItemSlot

/-- `Inventory::new()` / `Default::default()`: all slots empty. -/
def Inventory.new : Inventory := List.replicate MAX_ITEM_SLOTS ItemSlot.empty

/-- `Iterator::position`: index of the first element satisfying `p`. -/
def position (p : ItemSlot → Bool) : List ItemSlot → Option Nat
  | [] => none
  | s :: rest => if p s then some 0 else (position p rest).map (· + 1)

/-- `Inventory::get_quantity` (inventory.rs lines 72-78): quantity of the
first slot whose id matches, `0` if absent. -/
def Inventory.get_quantity (inv : Inventory) (item_id : Nat) : Nat :=
  match inv.find? (fun slot => slot.item_id == item_id) with
  | some slot => slot.quantity
  | none => 0

/-- `Inventory::find_slot` (inventory.rs lines 81-83). -/
def Inventory.find_slot (inv : Inventory) (item_id : Nat) : Option Nat :=
  position (fun slot => slot.item_id == item_id) inv

/-- `Inventory::find_empty_slot` (inventory.rs lines 86-88). -/
def Inventory.find_empty_slot (inv : Inventory) : Option Nat :=
  position (fun slot => slot.item_id == 0) inv

/-- `self.slots[idx].quantity = quantity`: update only the quantity of the
slot at `idx` (no-op when out of range, which the source never is). -/
def setQtyAt (inv : Inventory) (idx q : Nat) : Inventory :=
  match inv.get? idx with
  | some s => inv.set idx ⟨s.item_id, q⟩
  | none => inv

/-- `Inventory::set_quantity` (inventory.rs lines 91-112).  The result is the
new inventory together with the optional error, mirroring
`&mut self → Result<(), &'static str>`. -/
def Inventory.set_quantity (inv : Inventory) (item_id quantity : Nat) :
    Inventory × Option String :=
  match inv.find_slot item_id with
  | some idx =>
      if quantity = 0 then (inv.set idx ItemSlot.empty, none)
      else (setQtyAt inv idx quantity, none)
  | none =>
      if 0 < quantity then
        match inv.find_empty_slot with
        | some idx => (inv.set idx ⟨item_id, quantity⟩, none)
        | none => (inv, some "No empty slots available")
      else (inv, none)

/-- `Inventory::withdraw` (inventory.rs lines 115-121). -/
def Inventory.withdraw (inv : Inventory) (item_id amount : Nat) :
    Inventory × Option String :=
  let current := inv.get_quantity item_id
  if current < amount then (inv, some "Insufficient quantity")
  else inv.set_quantity item_id (current - amount)

/-- `Inventory::deposit` (inventory.rs lines 124-127). -/
def Inventory.deposit (inv : Inventory) (item_id amount : Nat) :
    Inventory × Option String :=
  let current := inv.get_quantity item_id
  inv.set_quantity item_id (current + amount)

/-! ### Inventory invariants (spec §3) -/

/-- ItemSlot invariant: `item_id = 0 ⇒ quantity = 0`. -/
def slotInvariant (inv : Inventory) : Prop :=
  ∀ s ∈ inv, s.item_id = 0 → s.quantity = 0

/-- No-duplicate invariant: at most one slot per nonzero item id. -/
def noDupIds (inv : Inventory) : Prop :=
  inv.Pairwise (fun a b => a.item_id = b.item_id → a.item_id = 0)

/-- Canonical-emptiness: a zero-quantity slot is an empty slot
(`quantity = 0 ⇒ item_id = 0`). -/
def zeroQtyEmpty (inv : Inventory) : Prop :=
  ∀ s ∈ inv, s.quantity = 0 → s.item_id = 0

instance (inv : Inventory) : Decidable (slotInvariant inv) :=
  inferInstanceAs (Decidable (∀ s ∈ inv, s.item_id = 0 → s.quantity = 0))

instance (inv : Inventory) : Decidable (noDupIds inv) :=
  inferInstanceAs (Decidable (inv.Pairwise _))

instance (inv : Inventory) : Decidable (zeroQtyEmpty inv) :=
  inferInstanceAs (Decidable (∀ s ∈ inv, s.quantity = 0 → s.item_id = 0))

/-! ### Lemmas about `position`, `find?`, `set` -/

theorem position_eq_none {p : ItemSlot → Bool} {l : List ItemSlot} :
    position p l = none ↔ ∀ x ∈ l, p x = false := by
  induction l with
  | nil => simp [position]
  | cons a rest ih =>
      by_cases h : p a = true
      · simp [position, h]
      · simp only [Bool.not_eq_true] at h
        simp [position, h, Option.map_eq_none', ih]

theorem position_append_of_false {p : ItemSlot → Bool} {l₁ : List ItemSlot}
    (h₁ : ∀ x ∈ l₁, p x = false) {s : ItemSlot} (hs : p s = true)
    (l₂ : List ItemSlot) :
    position p (l₁ ++ s :: l₂) = some l₁.length := by
  induction l₁ with
  | nil => simp [position, hs]
  | cons a rest ih =>
      have ha : p a = false := h₁ a (by simp)
      have := ih (fun x hx => h₁ x (by simp [hx]))
      simp [position, ha, this]

theorem position_eq_some {p : ItemSlot → Bool} {l : List ItemSlot} {n : Nat}
    (h : position p l = some n) :
    ∃ l₁ s l₂, l = l₁ ++ s :: l₂ ∧ l₁.length = n ∧ p s = true ∧
      ∀ x ∈ l₁, p x = false := by
  induction l generalizing n with
  | nil => simp [position] at h
  | cons a rest ih =>
      by_cases ha : p a = true
      · simp [position, ha] at h
        exact ⟨[], a, rest, by simp, by simp [h], ha, by simp⟩
      · simp only [Bool.not_eq_true] at ha
        simp [position, ha] at h
        obtain ⟨m, hm, rfl⟩ := h
        obtain ⟨l₁, s, l₂, rfl, hlen, hs, hpre⟩ := ih hm
        refine ⟨a :: l₁, s, l₂, by simp, by simp [hlen], hs, ?_⟩
        intro x hx
        rcases List.mem_cons.mp hx with rfl | hx
        · exact ha
        · exact hpre x hx

theorem find?_append_of_false {p : ItemSlot → Bool} {l₁ : List ItemSlot}
    (h₁ : ∀ x ∈ l₁, p x = false) (l₂ : List ItemSlot) :
    (l₁ ++ l₂).find? p = l₂.find? p := by
  induction l₁ with
  | nil => simp
  | cons a rest ih =>
      have ha : p a = false := h₁ a (by simp)
      have := ih (fun x hx => h₁ x (by simp [hx]))
      simp [List.find?, ha, this]

theorem set_append_length (l₁ : List ItemSlot) (s a : ItemSlot)
    (l₂ : List ItemSlot) :
    (l₁ ++ s :: l₂).set l₁.length a = l₁ ++ a :: l₂ := by
  induction l₁ with
  | nil => simp
  | cons b rest ih => simp [List.set, ih]

theorem get?_append_length (l₁ : List ItemSlot) (s : ItemSlot)
    (l₂ : List ItemSlot) :
    (l₁ ++ s :: l₂).get? l₁.length = some s := by
  induction l₁ with
  | nil => simp
  | cons b rest ih => simpa using ih

theorem get_quantity_append {l₁ : List ItemSlot} {id : Nat}
    (h₁ : ∀ x ∈ l₁, (x.item_id == id) = false) (s : ItemSlot)
    (l₂ : List ItemSlot) :
    Inventory.get_quantity (l₁ ++ s :: l₂) id =
      if s.item_id == id then s.quantity else Inventory.get_quantity l₂ id := by
  unfold Inventory.get_quantity
  rw [find?_append_of_false h₁]
  by_cases hs : (s.item_id == id) = true
  · simp [List.find?, hs]
  · simp only [Bool.not_eq_true] at hs
    simp [List.find?, hs]

theorem get_quantity_of_find_slot_none {inv : Inventory} {id : Nat}
    (h : inv.find_slot id = none) : inv.get_quantity id = 0 := by
  have hall := position_eq_none.mp h
  unfold Inventory.get_quantity
  rw [List.find?_eq_none.mpr (fun x hx => by simp [hall x hx])]

theorem noDup_tail_no_match {l₁ : List ItemSlot} {s : ItemSlot} {l₂ : List ItemSlot}
    (hnd : noDupIds (l₁ ++ s :: l₂)) (hid : s.item_id ≠ 0) :
    ∀ b ∈ l₂, (b.item_id == s.item_id) = false := by
  have h := (List.pairwise_append.mp hnd).2.1
  have h2 := (List.pairwise_cons.mp h).1
  intro b hb
  simp only [beq_eq_false_iff_ne, ne_eq]
  intro hbe
  exact hid (h2 b hb hbe.symm)

theorem setQtyAt_append (l₁ : List ItemSlot) (s : ItemSlot) (l₂ : List ItemSlot)
    (q : Nat) :
    setQtyAt (l₁ ++ s :: l₂) l₁.length q = l₁ ++ (⟨s.item_id, q⟩ : ItemSlot) :: l₂ := by
  unfold setQtyAt
  rw [get?_append_length]
  exact set_append_length l₁ s ⟨s.item_id, q⟩ l₂

/-- C6: `Inventory::withdraw(id, amount)` fails exactly when the held
quantity of `id` is less than `amount`; on failure the inventory is
unchanged; on success the held quantity decreases by `amount`, and when the
resulting quantity is zero the slot is cleared (id and quantity both 0).
The inventory is assumed to satisfy the data model's no-duplicate-id
invariant. -/
theorem withdraw_spec (inv : Inventory) (id amt : Nat) (hnd : noDupIds inv) :
    ((inv.withdraw id amt).2.isSome ↔ inv.get_quantity id < amt) ∧
    ((inv.withdraw id amt).2.isSome → (inv.withdraw id amt).1 = inv) ∧
    (amt ≤ inv.get_quantity id →
      (inv.withdraw id amt).1.get_quantity id = inv.get_quantity id - amt ∧
      (inv.get_quantity id - amt = 0 →
        ∀ idx, inv.find_slot id = some idx →
          (inv.withdraw id amt).1.get? idx = some ItemSlot.empty)) := by
  by_cases hlt : inv.get_quantity id < amt
  · refine ⟨by simp [Inventory.withdraw, hlt], fun _ => by simp [Inventory.withdraw, hlt],
      fun hle => absurd hlt (Nat.not_lt.mpr hle)⟩
  · have hw : inv.withdraw id amt = inv.set_quantity id (inv.get_quantity id - amt) := by
      simp [Inventory.withdraw, hlt]
    rw [hw]
    cases hfs : inv.find_slot id with
    | none =>
        have hq0 : inv.get_quantity id = 0 := get_quantity_of_find_slot_none hfs
        have hs : inv.set_quantity id (inv.get_quantity id - amt) = (inv, none) := by
          unfold Inventory.set_quantity
          simp only [hfs]
          simp [hq0]
        rw [hs]
        refine ⟨by simpa [hq0] using hlt, fun h => by simp at h, fun _ => ?_⟩
        refine ⟨by simp [hq0], fun _ idx hidx => ?_⟩
        exact absurd hidx (by simp)
    | some idx =>
        obtain ⟨l₁, s, l₂, rfl, hlen, hmatch, hpre⟩ := position_eq_some hfs
        have hsid : s.item_id = id := by simpa using hmatch
        have hq : Inventory.get_quantity (l₁ ++ s :: l₂) id = s.quantity := by
          rw [get_quantity_append hpre, if_pos hmatch]
        rw [hq] at hlt ⊢
        by_cases h0 : s.quantity - amt = 0
        · have hs : Inventory.set_quantity (l₁ ++ s :: l₂) id (s.quantity - amt) =
              (l₁ ++ ItemSlot.empty :: l₂, none) := by
            unfold Inventory.set_quantity
            simp only [hfs]
            rw [if_pos h0, ← hlen]
            rw [set_append_length]
          rw [hs]
          refine ⟨by simp; omega, fun h => by simp at h, fun _ => ?_⟩
          constructor
          · rw [h0]
            rw [get_quantity_append (s := ItemSlot.empty) hpre]
            by_cases hid0 : id = 0
            · simp [ItemSlot.empty, hid0]
            · have hno : ∀ b ∈ l₂, (b.item_id == id) = false := by
                intro b hb
                have := noDup_tail_no_match hnd (by rw [hsid]; exact hid0) b hb
                rwa [hsid] at this
              have hz : Inventory.get_quantity l₂ id = 0 := by
                unfold Inventory.get_quantity
                rw [List.find?_eq_none.mpr (fun x hx => by simp [hno x hx])]
              simp [ItemSlot.empty, Ne.symm hid0, hz]
          · intro _ j hj
            obtain rfl : idx = j := by simpa using hj
            rw [← hlen, get?_append_length]
        · have hs : Inventory.set_quantity (l₁ ++ s :: l₂) id (s.quantity - amt) =
              (l₁ ++ (⟨s.item_id, s.quantity - amt⟩ : ItemSlot) :: l₂, none) := by
            unfold Inventory.set_quantity
            simp only [hfs]
            rw [if_neg h0, ← hlen]
            rw [setQtyAt_append]
          rw [hs]
          refine ⟨by simp; omega, fun h => by simp at h, fun _ => ?_⟩
          refine ⟨?_, fun hz => absurd hz h0⟩
          rw [get_quantity_append (s := (⟨s.item_id, s.quantity - amt⟩ : ItemSlot)) hpre]
          simp [hmatch]

/-- C7: `Inventory::deposit(id, amount)` with a positive amount and an id
present in no slot fails exactly when no empty slot exists, and on failure
the inventory is unchanged. -/
theorem deposit_new_item_spec (inv : Inventory) (id amt : Nat) (hamt : 0 < amt)
    (habs : inv.find_slot id = none) :
    ((inv.deposit id amt).2.isSome ↔ inv.find_empty_slot = none) ∧
    ((inv.deposit id amt).2.isSome → (inv.deposit id amt).1 = inv) := by
  have hq0 : inv.get_quantity id = 0 := get_quantity_of_find_slot_none habs
  have hd : inv.deposit id amt = inv.set_quantity id amt := by
    simp [Inventory.deposit, hq0]
  rw [hd]
  unfold Inventory.set_quantity
  simp only [habs, hamt, if_pos]
  cases he : inv.find_empty_slot with
  | none => simp
  | some e => simp

/-- C8 (amended): for an inventory satisfying the spec invariants in which,
additionally, every zero-quantity slot is empty, a successful
`deposit(id, n)` followed by `withdraw(id, n)` restores exactly the
original inventory, slot for slot. -/
theorem deposit_withdraw_roundtrip (inv : Inventory) (id n : Nat)
    (h1 : slotInvariant inv) (hnd : noDupIds inv) (h3 : zeroQtyEmpty inv)
    (hok : (inv.deposit id n).2 = none) :
    ((inv.deposit id n).1.withdraw id n).1 = inv := by
  cases hfs : inv.find_slot id with
  | some idx =>
      obtain ⟨l₁, s, l₂, rfl, hlen, hmatch, hpre⟩ := position_eq_some hfs
      have hsid : s.item_id = id := by simpa using hmatch
      have hq : Inventory.get_quantity (l₁ ++ s :: l₂) id = s.quantity := by
        rw [get_quantity_append hpre, if_pos hmatch]
      by_cases h0 : s.quantity + n = 0
      · -- both the deposited amount and the stored quantity are zero
        have hqz : s.quantity = 0 := by omega
        have hnz : n = 0 := by omega
        have hsemp : s = ItemSlot.empty := by
          have hid0 : s.item_id = 0 := h3 s (by simp) hqz
          cases s
          simp_all [ItemSlot.empty]
        have hdep : Inventory.deposit (l₁ ++ s :: l₂) id n = (l₁ ++ s :: l₂, none) := by
          unfold Inventory.deposit Inventory.set_quantity
          rw [hq]
          simp only [hfs]
          rw [if_pos h0, ← hlen, set_append_length, ← hsemp]
        rw [hdep]
        have hwd : Inventory.withdraw (l₁ ++ s :: l₂) id n = (l₁ ++ s :: l₂, none) := by
          unfold Inventory.withdraw Inventory.set_quantity
          rw [hq]
          simp only [hfs]
          rw [if_neg (by omega : ¬ s.quantity < n),
            if_pos (by omega : s.quantity - n = 0), ← hlen, set_append_length, ← hsemp]
        rw [hwd]
      · have hdep : (Inventory.deposit (l₁ ++ s :: l₂) id n).1 =
            l₁ ++ (⟨s.item_id, s.quantity + n⟩ : ItemSlot) :: l₂ := by
          unfold Inventory.deposit Inventory.set_quantity
          rw [hq]
          simp only [hfs]
          rw [if_neg h0, ← hlen, setQtyAt_append]
        rw [hdep]
        set t : ItemSlot := ⟨s.item_id, s.quantity + n⟩ with ht
        have hmatch' : (t.item_id == id) = true := by simpa [ht] using hmatch
        have hq' : Inventory.get_quantity (l₁ ++ t :: l₂) id = s.quantity + n := by
          rw [get_quantity_append hpre, if_pos hmatch']
        have hfs' : Inventory.find_slot (l₁ ++ t :: l₂) id = some l₁.length :=
          position_append_of_false hpre hmatch' l₂
        unfold Inventory.withdraw Inventory.set_quantity
        rw [hq']
        simp only [hfs']
        rw [if_neg (by omega : ¬ s.quantity + n < n)]
        simp only [Nat.add_sub_cancel]
        by_cases hqz : s.quantity = 0
        · have hid0 : s.item_id = 0 := h3 s (by simp) hqz
          have hsemp : s = ItemSlot.empty := by
            cases s
            simp_all [ItemSlot.empty]
          rw [if_pos hqz, set_append_length, ← hsemp]
        · rw [if_neg hqz, setQtyAt_append]
  | none =>
      have hq0 : inv.get_quantity id = 0 := get_quantity_of_find_slot_none hfs
      by_cases hn : n = 0
      · have hdep : inv.deposit id n = (inv, none) := by
          unfold Inventory.deposit Inventory.set_quantity
          rw [hq0]
          simp only [hfs]
          simp [hn]
        rw [hdep]
        unfold Inventory.withdraw Inventory.set_quantity
        rw [hq0]
        simp only [hfs]
        simp [hn]
      · have hn' : 0 < n := Nat.pos_of_ne_zero hn
        cases he : inv.find_empty_slot with
        | none =>
            exfalso
            have : (inv.deposit id n).2 = some "No empty slots available" := by
              unfold Inventory.deposit Inventory.set_quantity
              rw [hq0]
              simp only [hfs, he]
              simp [hn']
            rw [this] at hok
            simp at hok
        | some e =>
            obtain ⟨m₁, u, m₂, rfl, hmlen, humatch, hmpre⟩ := position_eq_some he
            have huid : u.item_id = 0 := by simpa using humatch
            have hid0 : id ≠ 0 := by
              intro h
              rw [h] at hfs
              have : Inventory.find_slot (m₁ ++ u :: m₂) 0 =
                  Inventory.find_empty_slot (m₁ ++ u :: m₂) := rfl
              rw [this, he] at hfs
              simp at hfs
            have hall : ∀ x ∈ m₁ ++ u :: m₂, ((fun slot => slot.item_id == id) x) = false :=
              position_eq_none.mp hfs
            have hmpre' : ∀ x ∈ m₁, (x.item_id == id) = false :=
              fun x hx => hall x (by simp [hx])
            have hdep : (Inventory.deposit (m₁ ++ u :: m₂) id n).1 =
                m₁ ++ (⟨id, n⟩ : ItemSlot) :: m₂ := by
              unfold Inventory.deposit Inventory.set_quantity
              rw [hq0]
              simp only [Nat.zero_add, hfs, he]
              rw [if_pos hn', ← hmlen, set_append_length]
            rw [hdep]
            have hmatch' : ((⟨id, n⟩ : ItemSlot).item_id == id) = true := by simp
            have hq' : Inventory.get_quantity (m₁ ++ (⟨id, n⟩ : ItemSlot) :: m₂) id = n := by
              rw [get_quantity_append hmpre', if_pos hmatch']
            have hfs' : Inventory.find_slot (m₁ ++ (⟨id, n⟩ : ItemSlot) :: m₂) id =
                some m₁.length :=
              position_append_of_false hmpre' hmatch' m₂
            unfold Inventory.withdraw Inventory.set_quantity
            rw [hq']
            simp only [hfs']
            rw [if_neg (by omega : ¬ n < n), if_pos (Nat.sub_self n), set_append_length]
            have huemp : u = ItemSlot.empty := by
              have := h1 u (by simp) huid
              cases u
              simp_all [ItemSlot.empty]
            rw [← huemp]

/-- C5: `deposit` with the reserved item id `0` breaks the ItemSlot invariant
`item_id = 0 ⇒ quantity = 0`.  Starting from the empty inventory (which
satisfies the invariant), `deposit(0, 5)` succeeds and stores quantity `5`
into a slot whose id remains `0`. -/
theorem deposit_zero_id_breaks_invariant :
    slotInvariant Inventory.new ∧
    (Inventory.new.deposit 0 5).2 = none ∧
    (Inventory.new.deposit 0 5).1.head? = some ⟨0, 5⟩ ∧
    ¬ slotInvariant (Inventory.new.deposit 0 5).1 := by decide

/-- The inventory `[(5, 0), 15 empty slots]`: it satisfies the spec's stated
invariants (`item_id = 0 ⇒ quantity = 0` and no duplicate nonzero ids), but
holds a zero-quantity slot with a nonzero id. -/
def invC8 : Inventory := (⟨5, 0⟩ : ItemSlot) :: List.replicate 15 ItemSlot.empty

/-- C8 as stated is false: on `invC8` the triple `(invC8, 5, 3)` is legal
(the invariants hold and `deposit(5, 3)` succeeds), yet depositing and then
withdrawing `3` of item `5` clears the slot `(5, 0)` instead of restoring
it. -/
theorem deposit_withdraw_roundtrip_cex :
    slotInvariant invC8 ∧ noDupIds invC8 ∧
    (invC8.deposit 5 3).2 = none ∧
    ((invC8.deposit 5 3).1.withdraw 5 3).1 ≠ invC8 := by decide

/-- C10: quantities are `u64` and the native `deposit` enforces no 32-bit
bound: depositing onto an item already present succeeds even when the sum
exceeds `2^32 - 1`, and `get_quantity` then returns the full `u64` sum
(the hypothesis `< 2^64` marks the `u64` no-overflow regime). -/
theorem deposit_no_u32_bound (inv : Inventory) (id amt : Nat)
    (hfind : (inv.find_slot id).isSome)
    (hbig : 2 ^ 32 ≤ inv.get_quantity id + amt)
    (hu64 : inv.get_quantity id + amt < 2 ^ 64) :
    (inv.deposit id amt).2 = none ∧
    (inv.deposit id amt).1.get_quantity id = inv.get_quantity id + amt := by
  obtain ⟨idx, hfs⟩ := Option.isSome_iff_exists.mp hfind
  obtain ⟨l₁, s, l₂, rfl, hlen, hmatch, hpre⟩ := position_eq_some hfs
  have hq : Inventory.get_quantity (l₁ ++ s :: l₂) id = s.quantity := by
    rw [get_quantity_append hpre, if_pos hmatch]
  rw [hq] at hbig ⊢
  have h0 : ¬ (s.quantity + amt = 0) := by omega
  have hdep : Inventory.deposit (l₁ ++ s :: l₂) id amt =
      (l₁ ++ (⟨s.item_id, s.quantity + amt⟩ : ItemSlot) :: l₂, none) := by
    unfold Inventory.deposit Inventory.set_quantity
    rw [hq]
    simp only [hfs]
    rw [if_neg h0, ← hlen, setQtyAt_append]
  rw [hdep]
  refine ⟨rfl, ?_⟩
  rw [get_quantity_append (s := (⟨s.item_id, s.quantity + amt⟩ : ItemSlot)) hpre]
  simp [hmatch]

/-! ### Concrete witnesses for the inventory theorems -/

/-- A 16-slot inventory holding 100 of item 1. -/
def invW6 : Inventory := (⟨1, 100⟩ : ItemSlot) :: List.replicate 15 ItemSlot.empty

theorem withdraw_spec_witness :
    noDupIds invW6 ∧
    (((invW6.withdraw 1 30).2.isSome ↔ invW6.get_quantity 1 < 30) ∧
    ((invW6.withdraw 1 30).2.isSome → (invW6.withdraw 1 30).1 = invW6) ∧
    (30 ≤ invW6.get_quantity 1 →
      (invW6.withdraw 1 30).1.get_quantity 1 = invW6.get_quantity 1 - 30 ∧
      (invW6.get_quantity 1 - 30 = 0 →
        ∀ idx, invW6.find_slot 1 = some idx →
          (invW6.withdraw 1 30).1.get? idx = some ItemSlot.empty))) :=
  ⟨by decide, withdraw_spec invW6 1 30 (by decide)⟩

/-- A full inventory: 15 distinct items and one final empty slot. -/
def invW7 : Inventory :=
  (List.range 15).map (fun i => (⟨i + 1, 10⟩ : ItemSlot)) ++ [ItemSlot.empty]

/-- A completely full inventory: 16 distinct items. -/
def invW7full : Inventory := (List.range 16).map (fun i => (⟨i + 1, 10⟩ : ItemSlot))

theorem deposit_new_item_spec_witness :
    (0 < 7 ∧ invW7.find_slot 99 = none ∧ 0 < 7 ∧ invW7full.find_slot 99 = none) ∧
    (((invW7.deposit 99 7).2.isSome ↔ invW7.find_empty_slot = none) ∧
      ((invW7.deposit 99 7).2.isSome → (invW7.deposit 99 7).1 = invW7)) ∧
    (((invW7full.deposit 99 7).2.isSome ↔ invW7full.find_empty_slot = none) ∧
      ((invW7full.deposit 99 7).2.isSome → (invW7full.deposit 99 7).1 = invW7full)) ∧
    (invW7.deposit 99 7).2 = none ∧
    (invW7full.deposit 99 7).2 = some "No empty slots available" :=
  ⟨by decide,
   deposit_new_item_spec invW7 99 7 (by decide) (by decide),
   deposit_new_item_spec invW7full 99 7 (by decide) (by decide),
   by decide, by decide⟩

/-- A 16-slot inventory holding 20 of item 9. -/
def invW8 : Inventory := (⟨9, 20⟩ : ItemSlot) :: List.replicate 15 ItemSlot.empty

theorem deposit_withdraw_roundtrip_witness :
    (slotInvariant invW8 ∧ noDupIds invW8 ∧ zeroQtyEmpty invW8 ∧
      (invW8.deposit 9 5).2 = none) ∧
    ((invW8.deposit 9 5).1.withdraw 9 5).1 = invW8 :=
  ⟨⟨by decide, by decide, by decide, by decide⟩,
   deposit_withdraw_roundtrip invW8 9 5 (by decide) (by decide) (by decide) (by decide)⟩

/-- A 16-slot inventory holding `2^32 - 1` of item 7. -/
def invW10 : Inventory := (⟨7, 4294967295⟩ : ItemSlot) :: List.replicate 15 ItemSlot.empty

theorem deposit_no_u32_bound_witness :
    ((invW10.find_slot 7).isSome ∧ 2 ^ 32 ≤ invW10.get_quantity 7 + 1 ∧
      invW10.get_quantity 7 + 1 < 2 ^ 64) ∧
    (invW10.deposit 7 1).2 = none ∧
    (invW10.deposit 7 1).1.get_quantity 7 = invW10.get_quantity 7 + 1 :=
  ⟨⟨by decide, by decide, by decide⟩,
   deposit_no_u32_bound invW10 7 1 (by decide) (by decide) (by decide)⟩

/-! ## Slot-preservation checks of the operation circuits

The circuits' step-7 loops compare, slot by slot, the old and the new
inventory witnesses.  All variables are field elements; `is_eq` on field
variables is equality of values, so each slot's boolean check is a pure
function of the five values involved.  A slot here is the pair
`(id value, quantity value)`. -/

/-- Per-slot check of `WithdrawCircuit::generate_constraints`
(withdraw.rs lines 151-166): the slot is exempt only when its OLD id equals
the target id. -/
def withdrawSlotValid (t old_id old_qty new_id new_qty : Nat) : Bool :=
  let is_target_slot := old_id == t
  let id_unchanged := old_id == new_id
  let qty_unchanged := old_qty == new_qty
  is_target_slot || (id_unchanged && qty_unchanged)

/-- Per-slot check of `DepositCircuit::generate_constraints`
(deposit.rs lines 150-166): the slot is exempt when its id equals the target
id in the old or in the new inventory. -/
def depositSlotValid (t old_id old_qty new_id new_qty : Nat) : Bool :=
  let is_target_in_old := old_id == t
  let is_target_in_new := new_id == t
  let is_target_slot := is_target_in_old || is_target_in_new
  let id_unchanged := old_id == new_id
  let qty_unchanged := old_qty == new_qty
  is_target_slot || (id_unchanged && qty_unchanged)

/-- Per-slot check of the source-inventory loop of
`TransferCircuit::generate_constraints` (transfer.rs lines 218-228). -/
def transferSrcSlotValid (t old_id old_qty new_id new_qty : Nat) : Bool :=
  let is_target_slot := old_id == t
  let id_unchanged := old_id == new_id
  let qty_unchanged := old_qty == new_qty
  is_target_slot || (id_unchanged && qty_unchanged)

/-- Per-slot check of the destination-inventory loop of
`TransferCircuit::generate_constraints` (transfer.rs lines 231-244). -/
def transferDstSlotValid (t old_id old_qty new_id new_qty : Nat) : Bool :=
  let is_target_in_old := old_id == t
  let is_target_in_new := new_id == t
  let is_target_slot := is_target_in_old || is_target_in_new
  let id_unchanged := old_id == new_id
  let qty_unchanged := old_qty == new_qty
  is_target_slot || (id_unchanged && qty_unchanged)

/-- The slot loop: `slot_valid.enforce_equal(&Boolean::TRUE)` for every slot
index; the bundle of constraints is satisfied exactly when every per-slot
boolean is true. -/
def slotChecksPass (valid : Nat → Nat → Nat → Nat → Nat → Bool) (t : Nat)
    (oldSlots newSlots : List (Nat × Nat)) : Prop :=
  ∀ i, i < oldSlots.length → i < newSlots.length →
    valid t (oldSlots.getD i (0, 0)).1 (oldSlots.getD i (0, 0)).2
      (newSlots.getD i (0, 0)).1 (newSlots.getD i (0, 0)).2 = true

/-- Modelled from the spec's words (§4.3): a slot is *target-involved* when
its id equals the target id in the old or in the new version, and every slot
that is not target-involved is pointwise equal between old and new. -/
def targetInvolvedExemption (t : Nat) (oldSlots newSlots : List (Nat × Nat)) : Prop :=
  ∀ i, i < oldSlots.length → i < newSlots.length →
    ¬((oldSlots.getD i (0, 0)).1 = t ∨ (newSlots.getD i (0, 0)).1 = t) →
      oldSlots.getD i (0, 0) = newSlots.getD i (0, 0)

/-- The old-only exemption actually implemented by the Withdraw circuit and
the Transfer source loop: a slot is exempt exactly when its OLD id equals
the target id. -/
def oldTargetExemption (t : Nat) (oldSlots newSlots : List (Nat × Nat)) : Prop :=
  ∀ i, i < oldSlots.length → i < newSlots.length →
    ¬(oldSlots.getD i (0, 0)).1 = t →
      oldSlots.getD i (0, 0) = newSlots.getD i (0, 0)

instance (t : Nat) (oldSlots newSlots : List (Nat × Nat)) :
    Decidable (targetInvolvedExemption t oldSlots newSlots) :=
  inferInstanceAs (Decidable (∀ i, i < oldSlots.length → _))

instance (valid : Nat → Nat → Nat → Nat → Nat → Bool) (t : Nat)
    (oldSlots newSlots : List (Nat × Nat)) :
    Decidable (slotChecksPass valid t oldSlots newSlots) :=
  inferInstanceAs (Decidable (∀ i, i < oldSlots.length → _))

theorem withdrawSlotValid_iff (t a b c d : Nat) :
    withdrawSlotValid t a b c d = true ↔ (¬ a = t → (a, b) = (c, d)) := by
  simp only [withdrawSlotValid, Bool.or_eq_true, Bool.and_eq_true, beq_iff_eq,
    Prod.mk.injEq]
  tauto

theorem depositSlotValid_iff (t a b c d : Nat) :
    depositSlotValid t a b c d = true ↔ (¬ (a = t ∨ c = t) → (a, b) = (c, d)) := by
  simp only [depositSlotValid, Bool.or_eq_true, Bool.and_eq_true, beq_iff_eq,
    Prod.mk.injEq]
  tauto

/-- The 16-slot old inventory `[(5, 7), 15 empty]`. -/
def cexOld : List (Nat × Nat) := (5, 7) :: List.replicate 15 (0, 0)

/-- The 16-slot new inventory `[(3, 7), 15 empty]`. -/
def cexNew : List (Nat × Nat) := (3, 7) :: List.replicate 15 (0, 0)

/-- C1 as stated is false for the Withdraw circuit: with target id `3`, the
witness `old = [(5, 7), …]`, `new = [(3, 7), …]` satisfies the claimed
old-or-new exemption policy (slot 0 is target-involved in the new version),
yet the Withdraw slot check rejects it, because the circuit exempts a slot
only when its OLD id equals the target. -/
theorem slot_preservation_cex :
    targetInvolvedExemption 3 cexOld cexNew ∧
    ¬ slotChecksPass withdrawSlotValid 3 cexOld cexNew := by
  constructor
  · decide
  · intro h
    have := h 0 (by decide) (by decide)
    simp [cexOld, cexNew, withdrawSlotValid] at this

/-- C1 (amended): for the Deposit circuit and the Transfer destination loop,
a slot is exempt from the preservation check exactly when its id equals the
target id in the old or in the new inventory; for the Withdraw circuit and
the Transfer source loop it is exempt exactly when its OLD id equals the
target id; in each case every non-exempt slot is constrained to identical
id and identical quantity. -/
theorem slot_preservation_amended (t : Nat) (oldSlots newSlots : List (Nat × Nat)) :
    (slotChecksPass depositSlotValid t oldSlots newSlots ↔
      targetInvolvedExemption t oldSlots newSlots) ∧
    (slotChecksPass transferDstSlotValid t oldSlots newSlots ↔
      targetInvolvedExemption t oldSlots newSlots) ∧
    (slotChecksPass withdrawSlotValid t oldSlots newSlots ↔
      oldTargetExemption t oldSlots newSlots) ∧
    (slotChecksPass transferSrcSlotValid t oldSlots newSlots ↔
      oldTargetExemption t oldSlots newSlots) := by
  have htd : ∀ a b c d, transferDstSlotValid t a b c d = depositSlotValid t a b c d :=
    fun _ _ _ _ => rfl
  have hts : ∀ a b c d, transferSrcSlotValid t a b c d = withdrawSlotValid t a b c d :=
    fun _ _ _ _ => rfl
  refine ⟨?_, ?_, ?_, ?_⟩
  · constructor
    · intro h i hi hj hne
      exact (depositSlotValid_iff t _ _ _ _).mp (h i hi hj) hne
    · intro h i hi hj
      exact (depositSlotValid_iff t _ _ _ _).mpr (h i hi hj)
  · constructor
    · intro h i hi hj hne
      exact (depositSlotValid_iff t _ _ _ _).mp ((htd _ _ _ _) ▸ h i hi hj) hne
    · intro h i hi hj
      rw [htd]
      exact (depositSlotValid_iff t _ _ _ _).mpr (h i hi hj)
  · constructor
    · intro h i hi hj hne
      exact (withdrawSlotValid_iff t _ _ _ _).mp (h i hi hj) hne
    · intro h i hi hj
      exact (withdrawSlotValid_iff t _ _ _ _).mpr (h i hi hj)
  · constructor
    · intro h i hi hj hne
      exact (withdrawSlotValid_iff t _ _ _ _).mp ((hts _ _ _ _) ▸ h i hi hj) hne
    · intro h i hi hj
      rw [hts]
      exact (withdrawSlotValid_iff t _ _ _ _).mpr (h i hi hj)

/-! ## Range-check gadget (`crates/circuits/src/range_check.rs`)

The circuits work over the BN254 scalar field.  A field element is modelled
by its integer representative in `[0, p)`; field equality is equality of
representatives, and sums computed in the field are the natural-number sums
reduced `% p`. -/

/-- The order of the BN254 scalar field `Fr` (the modulus of the circuit
field). -/
def p : Nat :=
  21888242871839275222246405745257275088548364400416034343698204186575808495617

/-- `RANGE_BITS` (range_check.rs line 23). -/
def RANGE_BITS : Nat := 32

/-- The reconstruction loop of `enforce_range` (range_check.rs lines 52-63):
`reconstructed += bit.select(coeff, 0)` with the accumulator `coeff`
doubling each round.  The field value of the sum is this natural number
reduced `% p`. -/
def reconstructAux : List Bool → Nat → Nat
  | [], _ => 0
  | b :: rest, coeff => (if b then coeff else 0) + reconstructAux rest (coeff * 2)

/-- `reconstruct bits = Σ bits[i] * 2^i`. -/
def reconstruct (bits : List Bool) : Nat := reconstructAux bits 1

/-- Satisfiability of the constraint bundle emitted by
`enforce_range(v, num_bits)`: the booleanity constraints force each bit
witness into `{0, 1}` (hence `List Bool`), and `value.enforce_equal`
requires the reconstruction to equal `v` in the field. -/
def rangeSatisfiable (v num_bits : Nat) : Prop :=
  ∃ bits : List Bool, bits.length = num_bits ∧ reconstruct bits % p = v % p

/-- Satisfiability of `enforce_u32_range` (range_check.rs lines 78-83):
the wrapper calls `enforce_range(v, RANGE_BITS)`. -/
def u32RangeSatisfiable (v : Nat) : Prop := rangeSatisfiable v RANGE_BITS

/-- The low `n` bits of `v`, least significant first. -/
def bitsOf (v : Nat) : Nat → List Bool
  | 0 => []
  | n + 1 => decide (v % 2 = 1) :: bitsOf (v / 2) n

theorem bitsOf_length (v n : Nat) : (bitsOf v n).length = n := by
  induction n generalizing v with
  | zero => rfl
  | succ n ih => simp [bitsOf, ih]

theorem reconstructAux_add_le (bits : List Bool) (c : Nat) :
    reconstructAux bits c + c ≤ c * 2 ^ bits.length := by
  induction bits generalizing c with
  | nil => simp [reconstructAux]
  | cons b rest ih =>
      have h := ih (c * 2)
      simp only [reconstructAux, List.length_cons, pow_succ]
      have h2 : c * (2 ^ rest.length * 2) = c * 2 * 2 ^ rest.length := by ring
      rw [h2]
      cases b
      · rw [if_neg (by simp)]
        omega
      · rw [if_pos rfl]
        omega

theorem reconstructAux_bitsOf (n : Nat) : ∀ (v c : Nat),
    reconstructAux (bitsOf v n) c = c * (v % 2 ^ n) := by
  induction n with
  | zero => intro v c; simp [bitsOf, reconstructAux, Nat.mod_one]
  | succ n ih =>
      intro v c
      have hmod2 : v % 2 = 0 ∨ v % 2 = 1 := Nat.mod_two_eq_zero_or_one v
      have hsplit : v % 2 ^ (n + 1) = v % 2 + 2 * (v / 2 % 2 ^ n) := by
        have h2 : (2 : Nat) ^ (n + 1) = 2 * 2 ^ n := by rw [pow_succ, Nat.mul_comm]
        rw [h2, Nat.mod_mul]
      simp only [bitsOf, reconstructAux, ih]
      rcases hmod2 with h | h <;> simp [h, hsplit] <;> ring

theorem reconstruct_bitsOf (v n : Nat) (hv : v < 2 ^ n) :
    reconstruct (bitsOf v n) = v := by
  unfold reconstruct
  rw [reconstructAux_bitsOf, Nat.one_mul, Nat.mod_eq_of_lt hv]

/-- C3: for a field element with representative `v`, the constraint system
of `enforce_range(v, 32)` (and of its wrapper `enforce_u32_range`) is
satisfiable iff `v ∈ [0, 2^32)`; in particular `2^32 - 1` is accepted and
`2^32` is rejected. -/
theorem enforce_range_32 (v : Nat) (hv : v < p) :
    (rangeSatisfiable v 32 ↔ v < 2 ^ 32) ∧
    (u32RangeSatisfiable v ↔ v < 2 ^ 32) ∧
    u32RangeSatisfiable (2 ^ 32 - 1) ∧ ¬ u32RangeSatisfiable (2 ^ 32) := by
  have hpow_lt : (2 : Nat) ^ 32 < p := by norm_num [p]
  have main : ∀ w : Nat, w < p → (rangeSatisfiable w 32 ↔ w < 2 ^ 32) := by
    intro w hw
    constructor
    · rintro ⟨bits, hlen, hmod⟩
      have hle : reconstruct bits + 1 ≤ 1 * 2 ^ bits.length := reconstructAux_add_le bits 1
      rw [hlen, Nat.one_mul] at hle
      have hlt : reconstruct bits < 2 ^ 32 := by omega
      rw [Nat.mod_eq_of_lt (lt_trans hlt hpow_lt), Nat.mod_eq_of_lt hw] at hmod
      omega
    · intro hlt
      exact ⟨bitsOf w 32, bitsOf_length w 32, by rw [reconstruct_bitsOf w 32 hlt]⟩
  refine ⟨main v hv, main v hv, ?_, ?_⟩
  · exact (main (2 ^ 32 - 1) (by omega)).mpr (by omega)
  · intro h
    have := (main (2 ^ 32) (by omega)).mp h
    omega

theorem enforce_range_32_witness :
    (12345 : Nat) < p ∧
    ((rangeSatisfiable 12345 32 ↔ (12345 : Nat) < 2 ^ 32) ∧
      (u32RangeSatisfiable 12345 ↔ (12345 : Nat) < 2 ^ 32) ∧
      u32RangeSatisfiable (2 ^ 32 - 1) ∧ ¬ u32RangeSatisfiable (2 ^ 32)) :=
  ⟨by norm_num [p], enforce_range_32 12345 (by norm_num [p])⟩

/-! ## ItemExists circuit (`crates/circuits/src/item_exists.rs`)

The Poseidon sponge is an external primitive (spec §1 non-goals); it is
modelled as an abstract function `H` on the list of absorbed
representatives.  The comparison gadget `FpVar::enforce_cmp(zero, Greater,
true)` is likewise external (`ark_r1cs_std`); per its documentation it is
usable for values below `(p-1)/2` and enforces `difference ≥ 0` on
representatives, so its satisfaction is modelled as the representative of
the difference lying below a gadget bound `B`.  The theorem holds for every
bound `B` with `2^64 ≤ B ≤ p - 2^64`, which covers `(p-1)/2`. -/

/-- `Inventory::to_field_elements` (inventory.rs lines 59-69): alternating
id and quantity of every slot.  In the `u32`/`u64` regime every value is
below `p`, so the values are their own representatives. -/
def to_field_elements (inv : Inventory) : List Nat :=
  inv.flatMap (fun slot => [slot.item_id, slot.quantity])

/-- `create_inventory_commitment` (commitment.rs lines 81-95) and equally the
in-circuit `commit_inventory`: hash of the 32 slot entries followed by the
blinding. -/
def create_inventory_commitment (H : List Nat → Nat) (inv : Inventory)
    (blinding : Nat) : Nat :=
  H (to_field_elements inv ++ [blinding])

/-- `InventoryVar::get_quantity_for_item` (inventory.rs lines 169-186): the
field sum over all slots of `quantity * [id == target]`, accumulated with
`is_match.select`.  The field value is this natural number `% p`. -/
def circuit_get_quantity (inv : Inventory) (target_item_id : Nat) : Nat :=
  inv.foldl (fun acc slot =>
    acc + (if slot.item_id == target_item_id then slot.quantity else 0)) 0

/-- Field subtraction on representatives: `a - b` in the field. -/
def fsub (a b : Nat) : Nat := (a % p + (p - b % p)) % p

/-- Satisfaction of the constraints of
`ItemExistsCircuit::generate_constraints` (item_exists.rs lines 81-120) at
the honest witness `(inventory, blinding)` and public inputs
`(commitment, item_id, min_quantity)`:
the computed commitment must equal the public commitment, and
`(actual_quantity - min_quantity).enforce_cmp(0, Greater, true)` must hold,
the latter modelled by the gadget bound `B` on the representative of the
difference. -/
def itemExistsSat (H : List Nat → Nat) (B : Nat) (inv : Inventory)
    (blinding commitment item_id min_quantity : Nat) : Prop :=
  create_inventory_commitment H inv blinding = commitment ∧
  fsub (circuit_get_quantity inv item_id % p) min_quantity ≤ B

theorem foldl_add_eq_sum (f : ItemSlot → Nat) (l : List ItemSlot) :
    ∀ acc : Nat, l.foldl (fun acc s => acc + f s) acc = acc + (l.map f).sum := by
  induction l with
  | nil => intro acc; simp
  | cons a rest ih =>
      intro acc
      simp only [List.foldl_cons, List.map_cons, List.sum_cons, ih (acc + f a)]
      omega

theorem circuit_get_quantity_eq_sum (inv : Inventory) (t : Nat) :
    circuit_get_quantity inv t =
      (inv.map (fun slot => if slot.item_id == t then slot.quantity else 0)).sum := by
  unfold circuit_get_quantity
  rw [foldl_add_eq_sum (fun slot => if slot.item_id == t then slot.quantity else 0)
    inv 0, Nat.zero_add]

/-- Under the data-model invariants the in-circuit sum-by-selection equals
the native `get_quantity`. -/
theorem circuit_get_quantity_eq_native (inv : Inventory) (t : Nat)
    (hinv : slotInvariant inv) (hnd : noDupIds inv) :
    circuit_get_quantity inv t = inv.get_quantity t := by
  rw [circuit_get_quantity_eq_sum]
  induction inv with
  | nil => simp [Inventory.get_quantity]
  | cons a rest ih =>
      have hr : ∀ b ∈ rest, a.item_id = b.item_id → a.item_id = 0 :=
        (List.pairwise_cons.mp hnd).1
      have hinv' : slotInvariant rest := fun s hs => hinv s (by simp [hs])
      have hnd' : noDupIds rest := (List.pairwise_cons.mp hnd).2
      by_cases ha : (a.item_id == t) = true
      · have hat : a.item_id = t := by simpa using ha
        have hrest0 : (rest.map (fun slot =>
            if slot.item_id == t then slot.quantity else 0)).sum = 0 := by
          apply List.sum_eq_zero
          intro x hx
          obtain ⟨b, hb, rfl⟩ := List.mem_map.mp hx
          by_cases hbt : (b.item_id == t) = true
          · have hbt' : b.item_id = t := by simpa using hbt
            by_cases ht0 : t = 0
            · have : b.quantity = 0 := hinv' b hb (by rw [hbt', ht0])
              simp [hbt, this]
            · exact absurd (hr b hb (by rw [hat, hbt'])) (by rw [hat]; exact ht0)
          · simp only [Bool.not_eq_true] at hbt
            simp [hbt]
        have hgq : Inventory.get_quantity (a :: rest) t = a.quantity := by
          unfold Inventory.get_quantity
          simp only [List.find?, ha]
        rw [List.map_cons, List.sum_cons, if_pos ha, hrest0, hgq]
        omega
      · simp only [Bool.not_eq_true] at ha
        have hgq : Inventory.get_quantity (a :: rest) t =
            Inventory.get_quantity rest t := by
          unfold Inventory.get_quantity
          simp only [List.find?, ha]
        rw [List.map_cons, List.sum_cons, if_neg (by simp [ha]), hgq,
          Nat.zero_add, ih hinv' hnd']

theorem get_quantity_lt (inv : Inventory) (t bound : Nat) (hb : 0 < bound)
    (hall : ∀ s ∈ inv, s.quantity < bound) : inv.get_quantity t < bound := by
  unfold Inventory.get_quantity
  cases hf : inv.find? (fun slot => slot.item_id == t) with
  | none => exact hb
  | some s => exact hall s (List.mem_of_find?_eq_some hf)

/-- C4: for an inventory satisfying the data-model invariants whose
quantities fit in 32 bits, any blinding, and the commitment computed from
them, the ItemExists circuit with public inputs
`(commitment, item_id, min_quantity)` is satisfied iff the inventory's
quantity for `item_id` is at least `min_quantity` (in particular a quantity
exactly equal to `min_quantity` satisfies it).  `H` is the abstract Poseidon
sponge and `B` the comparison-gadget bound. -/
theorem item_exists_circuit (H : List Nat → Nat) (B : Nat) (inv : Inventory)
    (blinding item_id min_quantity : Nat)
    (hB1 : 2 ^ 64 ≤ B) (hB2 : B ≤ p - 2 ^ 64)
    (hq32 : ∀ s ∈ inv, s.quantity < 2 ^ 32)
    (hinv : slotInvariant inv) (hnd : noDupIds inv)
    (hmin : min_quantity < 2 ^ 64) :
    (itemExistsSat H B inv blinding
        (create_inventory_commitment H inv blinding) item_id min_quantity ↔
      min_quantity ≤ inv.get_quantity item_id) := by
  have hq : circuit_get_quantity inv item_id = inv.get_quantity item_id :=
    circuit_get_quantity_eq_native inv item_id hinv hnd
  have hqlt : inv.get_quantity item_id < 2 ^ 32 :=
    get_quantity_lt inv item_id (2 ^ 32) (by norm_num) hq32
  have hp64 : 2 ^ 64 + 2 ^ 64 < p := by norm_num [p]
  set q := inv.get_quantity item_id with hqdef
  have hqp : q % p = q := Nat.mod_eq_of_lt (by omega)
  have hmp : min_quantity % p = min_quantity := Nat.mod_eq_of_lt (by omega)
  unfold itemExistsSat
  rw [hq]
  unfold fsub
  rw [hqp, hqp, hmp]
  constructor
  · rintro ⟨-, hcmp⟩
    by_contra hlt
    push_neg at hlt
    have harg : q + (p - min_quantity) < p := by omega
    rw [Nat.mod_eq_of_lt harg] at hcmp
    omega
  · intro hge
    refine ⟨rfl, ?_⟩
    have harg : q + (p - min_quantity) = p + (q - min_quantity) := by omega
    rw [harg, Nat.add_mod_left, Nat.mod_eq_of_lt (by omega)]
    omega

/-- The 16-slot inventory `[(1, 100), 15 empty]` used by the C4 witness. -/
def invW4 : Inventory := (⟨1, 100⟩ : ItemSlot) :: List.replicate 15 ItemSlot.empty

theorem item_exists_circuit_witness :
    ((2 : Nat) ^ 64 ≤ 2 ^ 64 ∧ (2 : Nat) ^ 64 ≤ p - 2 ^ 64 ∧
      (∀ s ∈ invW4, s.quantity < 2 ^ 32) ∧ slotInvariant invW4 ∧ noDupIds invW4 ∧
      (100 : Nat) < 2 ^ 64) ∧
    (itemExistsSat (fun _ => 0) (2 ^ 64) invW4 12345
        (create_inventory_commitment (fun _ => 0) invW4 12345) 1 100 ↔
      100 ≤ invW4.get_quantity 1) :=
  ⟨⟨le_refl _, by norm_num [p], by decide, by decide, by decide, by norm_num⟩,
   item_exists_circuit (fun _ => 0) (2 ^ 64) invW4 12345 1 100 (le_refl _)
     (by norm_num [p]) (by decide) (by decide) (by decide) (by norm_num)⟩

/-! ## R1CS optimizer (`crates/r1cs-optimizer`)

The constraint representation (`src/constraint.rs`) and the four rewriting
passes (`src/passes/*.rs`) are generic over an arkworks `PrimeField`; they
use only ring operations and equality tests, so they are embedded over an
arbitrary commutative ring with decidable equality.  `usize` indices are
`Nat`.  The `u64` outputs of `DefaultHasher` are modelled by the exact data
the source feeds to the hasher (the sorted nonzero term lists), i.e. the
hash function is treated as injective: a `DefaultHasher` collision between
distinct term lists is assumed absent. -/

namespace R1CS

variable {F : Type} [CommRing F] [DecidableEq F]

/-- `Term` (constraint.rs lines 14-31): `variable` is a Lean keyword, so the
field is named `vr`. -/
structure Term (F : Type) where
  vr : Nat
  coeff : F
deriving DecidableEq

/-- `LinearCombination` (constraint.rs lines 34-123). -/
structure LinearCombination (F : Type) where
  terms : List (Term F)
deriving DecidableEq

/-- `Constraint` (constraint.rs lines 127-199). -/
structure Constraint (F : Type) where
  index : Nat
  a : LinearCombination F
  b : LinearCombination F
  c : LinearCombination F
deriving DecidableEq

/-- `ConstraintMatrix` (constraint.rs lines 202-360). -/
structure ConstraintMatrix (F : Type) where
  constraints : List (Constraint F)
  num_public_inputs : Nat
  num_private_witnesses : Nat
  num_variables : Nat
deriving DecidableEq

/-- `Term::is_constant`: variable index 0 is the constant one. -/
def Term.is_constant (t : Term F) : Bool := t.vr == 0

/-- `LinearCombination::is_constant`. -/
def LinearCombination.is_constant (lc : LinearCombination F) : Bool :=
  lc.terms.all (fun t => t.is_constant)

/-- `LinearCombination::is_single_variable`:
`terms.len() == 1 && !terms[0].is_constant()`. -/
def LinearCombination.is_single_variable (lc : LinearCombination F) : Bool :=
  match lc.terms with
  | [t] => !t.is_constant
  | _ => false

/-- `LinearCombination::is_one`. -/
def LinearCombination.is_one (lc : LinearCombination F) : Bool :=
  match lc.terms with
  | [t] => t.is_constant && t.coeff == 1
  | _ => false

/-- `LinearCombination::num_terms`: nonzero terms only. -/
def LinearCombination.num_terms (lc : LinearCombination F) : Nat :=
  (lc.terms.filter (fun t => !(t.coeff == 0))).length

/-- `LinearCombination::variables`: indices of non-constant nonzero terms. -/
def LinearCombination.variables (lc : LinearCombination F) : List Nat :=
  (lc.terms.filter (fun t => !t.is_constant && !(t.coeff == 0))).map (fun t => t.vr)

/-- `terms[0].variable`, used after an `is_single_variable` guard. -/
def LinearCombination.headVar (lc : LinearCombination F) : Nat :=
  match lc.terms with
  | t :: _ => t.vr
  | [] => 0

/-- `Constraint::is_linear`. -/
def Constraint.is_linear (ct : Constraint F) : Bool := ct.a.is_one || ct.b.is_one

/-- `Constraint::is_constant`. -/
def Constraint.is_constant (ct : Constraint F) : Bool :=
  ct.a.is_constant && ct.b.is_constant

/-- `Constraint::variables`: the source sorts and then removes consecutive
duplicates; only membership is consumed downstream (`contains` in
`count_variable_usage`), so the sort is omitted and `dedup` keeps first
occurrences. -/
def Constraint.varList (ct : Constraint F) : List Nat :=
  (ct.a.variables ++ ct.b.variables ++ ct.c.variables).dedup

/-- Value of a linear combination under an assignment (variable 0 is the
constant one: theorems assume `x 0 = 1`). -/
def LinearCombination.eval (lc : LinearCombination F) (x : Nat → F) : F :=
  (lc.terms.map (fun t => t.coeff * x t.vr)).sum

/-- A constraint row `⟨A,v⟩ · ⟨B,v⟩ = ⟨C,v⟩`. -/
def Constraint.sat (ct : Constraint F) (x : Nat → F) : Prop :=
  ct.a.eval x * ct.b.eval x = ct.c.eval x

/-- An assignment satisfies a matrix when it satisfies every constraint. -/
def ConstraintMatrix.sat (m : ConstraintMatrix F) (x : Nat → F) : Prop :=
  ∀ ct ∈ m.constraints, ct.sat x

instance (ct : Constraint F) (x : Nat → F) : Decidable (ct.sat x) :=
  inferInstanceAs (Decidable (_ = _))

instance (m : ConstraintMatrix F) (x : Nat → F) : Decidable (m.sat x) :=
  inferInstanceAs (Decidable (∀ ct ∈ m.constraints, ct.sat x))

/-- The loop body of `ConstraintMatrix::with_constraints` (constraint.rs
lines 273-294): `new_idx` is the `enumerate` counter and out-of-range
old indices are skipped. -/
def withConstraintsAux (m : ConstraintMatrix F) : List Nat → Nat → List (Constraint F)
  | [], _ => []
  | i :: rest, new_idx =>
      match m.constraints.get? i with
      | some ct => ⟨new_idx, ct.a, ct.b, ct.c⟩ :: withConstraintsAux m rest (new_idx + 1)
      | none => withConstraintsAux m rest (new_idx + 1)

/-- `ConstraintMatrix::with_constraints`. -/
def ConstraintMatrix.with_constraints (m : ConstraintMatrix F) (indices : List Nat) :
    ConstraintMatrix F :=
  { m with constraints := withConstraintsAux m indices 0 }

/-- `ConstraintMatrix::without_constraints` (constraint.rs lines 297-305). -/
def ConstraintMatrix.without_constraints (m : ConstraintMatrix F)
    (indices_to_remove : List Nat) : ConstraintMatrix F :=
  m.with_constraints ((List.range m.constraints.length).filter
    (fun i => !indices_to_remove.contains i))

/-- Well-indexed matrices: `constraints[i].index = i`, as produced by
`from_cs`, `with_constraints` and `add_constraint`.  The passes index
`matrix.constraints[...]` by stored `index` values, which is meaningful
exactly on such matrices. -/
def wellIndexedFrom : List (Constraint F) → Nat → Bool
  | [], _ => true
  | ct :: rest, k => ct.index == k && wellIndexedFrom rest (k + 1)

def ConstraintMatrix.wellIndexed (m : ConstraintMatrix F) : Bool :=
  wellIndexedFrom m.constraints 0

/-- `PatternType` (reduction module; the module is consumed by the passes
through the fields used below). -/
inductive PatternType where
  | Duplicate
  | Constant
  | LinearSubstitution
  | DeadVariable
  | CommonSubexpression
deriving DecidableEq

/-- `MatchMetadata`: only the fields read back by the `reduce` phases are
modelled (`expression_hash` is a write-only diagnostic). -/
structure MatchMetadata where
  canonical_index : Option Nat := none
  substitute_variable : Option Nat := none
deriving DecidableEq

/-- `PatternMatch`.  The running `match_id` counters and the formatted
`description` strings are write-only; ids are set to 0 and descriptions to
fixed strings. -/
structure PatternMatch where
  id : Nat
  pattern_type : PatternType
  constraint_indices : List Nat
  variable_indices : List Nat
  estimated_reduction : Nat
  description : String
  metadata : MatchMetadata
deriving DecidableEq

/-! ### DeduplicationPass (`passes/deduplication.rs`) -/

/-- The data hashed by `LinearCombination::full_hash` (constraint.rs lines
101-122): the nonzero `(variable, coefficient)` pairs sorted by variable
index.  This is the modelled `u64` hash (injective on the hashed data). -/
def LinearCombination.fullKey (lc : LinearCombination F) : List (Nat × F) :=
  ((lc.terms.filter (fun t => !(t.coeff == 0))).map (fun t => (t.vr, t.coeff))).mergeSort
    (fun pr qr => decide (pr.1 ≤ qr.1))

/-- The data hashed by `Constraint::constraint_hash` (constraint.rs lines
174-183). -/
def Constraint.fullKey (ct : Constraint F) :
    List (Nat × F) × List (Nat × F) × List (Nat × F) :=
  (ct.a.fullKey, ct.b.fullKey, ct.c.fullKey)

/-- `lc_equal` (deduplication.rs lines 145-169): equal term-list lengths,
and every nonzero term of `b` equals the `a_map` entry for its variable.
`a_map` keeps, for each variable, the LAST nonzero coefficient inserted
(`HashMap::insert` overwrites), modelled by searching the reversed filtered
list. -/
def lc_equal (a b : LinearCombination F) : Bool :=
  if a.terms.length ≠ b.terms.length then false
  else
    b.terms.all (fun t =>
      if t.coeff == 0 then true
      else
        match (a.terms.filter (fun u => !(u.coeff == 0))).reverse.find?
            (fun u => u.vr == t.vr) with
        | some u => u.coeff == t.coeff
        | none => false)

/-- `constraints_equal` (deduplication.rs lines 140-142). -/
def constraints_equal (a b : Constraint F) : Bool :=
  lc_equal a.a b.a && lc_equal a.b b.b && lc_equal a.c b.c

namespace DeduplicationPass

/-- The distinct full-hash keys, in first-occurrence order (the `HashMap`
iteration order of the source is unspecified; the removal set computed by
`reduce` does not depend on it). -/
def keys (m : ConstraintMatrix F) : List (List (Nat × F) × List (Nat × F) × List (Nat × F)) :=
  (m.constraints.map (fun ct => ct.fullKey)).dedup

/-- The bucket `hash_to_constraints[h]`: indices of the constraints with
full key `k`, pushed in matrix order. -/
def bucket (m : ConstraintMatrix F)
    (k : List (Nat × F) × List (Nat × F) × List (Nat × F)) : List Nat :=
  (m.constraints.filter (fun ct => ct.fullKey == k)).map (fun ct => ct.index)

/-- `DeduplicationPass::scan` (deduplication.rs lines 52-107). -/
def scan (m : ConstraintMatrix F) : List PatternMatch :=
  (keys m).filterMap (fun k =>
    match bucket m k with
    | [] => none
    | [_] => none
    | i0 :: rest =>
        match m.constraints.get? i0 with
        | none => none
        | some first =>
            let confirmed := i0 :: rest.filter (fun i =>
              match m.constraints.get? i with
              | some other => constraints_equal first other
              | none => false)
            if confirmed.length > 1 then
              some { id := 0, pattern_type := .Duplicate,
                     constraint_indices := confirmed,
                     variable_indices := [],
                     estimated_reduction := confirmed.length - 1,
                     description := "duplicate constraints",
                     metadata := { canonical_index := some i0 } }
            else none)

/-- The removal set of `DeduplicationPass::reduce` (deduplication.rs lines
115-132): all non-canonical confirmed duplicates, then `sort`+`dedup`
(membership-equivalent to `dedup` alone). -/
def toRemove (ms : List PatternMatch) : List Nat :=
  (ms.flatMap (fun mt =>
    if mt.pattern_type == .Duplicate then
      match mt.metadata.canonical_index with
      | some canonical => mt.constraint_indices.filter (fun i => i ≠ canonical)
      | none => []
    else [])).dedup

/-- `DeduplicationPass::reduce` (deduplication.rs lines 109-136). -/
def reduce (m : ConstraintMatrix F) (ms : List PatternMatch) :
    ConstraintMatrix F :=
  if ms.isEmpty then m
  else m.without_constraints (toRemove ms)

/-- `reduce ∘ scan`. -/
def run (m : ConstraintMatrix F) : ConstraintMatrix F := reduce m (scan m)

end DeduplicationPass

/-! ### ConstantFoldingPass (`passes/constant_folding.rs`) -/

/-- `compute_constant_value` (constant_folding.rs lines 106-115): the sum of
the coefficients of the variable-0 terms. -/
def compute_constant_value (lc : LinearCombination F) : F :=
  (lc.terms.filter (fun t => t.vr == 0)).foldl (fun sum t => sum + t.coeff) 0

namespace ConstantFoldingPass

/-- `ConstantFoldingPass::scan` (constant_folding.rs lines 49-87). -/
def scan (m : ConstraintMatrix F) : List PatternMatch :=
  m.constraints.filterMap (fun ct =>
    if ct.is_constant then
      let a_val := compute_constant_value ct.a
      let b_val := compute_constant_value ct.b
      let c_val := compute_constant_value ct.c
      let is_satisfied := a_val * b_val == c_val
      some { id := 0, pattern_type := .Constant,
             constraint_indices := [ct.index],
             variable_indices := [],
             estimated_reduction := if is_satisfied then 1 else 0,
             description := if is_satisfied then
                 "constant and satisfied (can be removed)"
               else "constant but UNSATISFIED (system is invalid!)",
             metadata := {} }
    else none)

/-- `ConstantFoldingPass::reduce` (constant_folding.rs lines 89-102): only
satisfied constant constraints are removed. -/
def reduce (m : ConstraintMatrix F) (ms : List PatternMatch) :
    ConstraintMatrix F :=
  if ms.isEmpty then m
  else
    m.without_constraints ((ms.filter (fun mt =>
      mt.pattern_type == .Constant && mt.estimated_reduction > 0)).flatMap
        (fun mt => mt.constraint_indices))

/-- `reduce ∘ scan`. -/
def run (m : ConstraintMatrix F) : ConstraintMatrix F := reduce m (scan m)

end ConstantFoldingPass

/-! ### DeadVariablePass (`passes/dead_variable.rs`) -/

namespace DeadVariablePass

/-- A constraint uses `v` when `v` occurs in its A or B side
(the `var_usage` map of the scan). -/
def usesVariable (ct : Constraint F) (v : Nat) : Bool :=
  ct.a.variables.contains v || ct.b.variables.contains v

/-- `var_usage[v].len()`: the `HashSet` holds one constraint index per using
constraint. -/
def usage_count (m : ConstraintMatrix F) (v : Nat) : Nat :=
  (m.constraints.filter (fun ct => usesVariable ct v)).length

/-- `var_definitions[v]`: indices of constraints whose C side is the single
variable `v`. -/
def defining_constraints (m : ConstraintMatrix F) (v : Nat) : List Nat :=
  (m.constraints.filter (fun ct =>
    ct.c.is_single_variable && ct.c.headVar == v)).map (fun ct => ct.index)

/-- The keys of `var_definitions`, in first-occurrence order (the `HashMap`
iteration order of the source is unspecified; the removal set is
independent of it). -/
def defined_vars (m : ConstraintMatrix F) : List Nat :=
  (m.constraints.filterMap (fun ct =>
    if ct.c.is_single_variable then some ct.c.headVar else none)).dedup

/-- `DeadVariablePass::scan` (dead_variable.rs lines 56-110). -/
def scan (m : ConstraintMatrix F) : List PatternMatch :=
  (defined_vars m).filterMap (fun v =>
    if v < m.num_public_inputs then none
    else if usage_count m v == 0 && (defining_constraints m v).length == 1 then
      match defining_constraints m v with
      | [ci] => some { id := 0, pattern_type := .DeadVariable,
                       constraint_indices := [ci],
                       variable_indices := [v],
                       estimated_reduction := 1,
                       description := "dead variable definition",
                       metadata := {} }
      | _ => none
    else none)

/-- `DeadVariablePass::reduce` (dead_variable.rs lines 112-124). -/
def reduce (m : ConstraintMatrix F) (ms : List PatternMatch) :
    ConstraintMatrix F :=
  if ms.isEmpty then m
  else
    m.without_constraints ((ms.filter
      (fun mt => mt.pattern_type == .DeadVariable)).flatMap
        (fun mt => mt.constraint_indices))

/-- `reduce ∘ scan`. -/
def run (m : ConstraintMatrix F) : ConstraintMatrix F := reduce m (scan m)

end DeadVariablePass

/-! ### LinearSubstitutionPass (`passes/linear_substitution.rs`) -/

namespace LinearSubstitutionPass

/-- `MAX_SUBSTITUTION_TERMS` (linear_substitution.rs line 33). -/
def MAX_SUBSTITUTION_TERMS : Nat := 4

/-- `count_variable_usage` (linear_substitution.rs lines 197-208). -/
def count_variable_usage (m : ConstraintMatrix F) (v : Nat) (exclude_idx : Nat) : Nat :=
  ((m.constraints.filter (fun ct => ct.index ≠ exclude_idx)).filter
    (fun ct => ct.varList.contains v)).length

/-- `LinearSubstitutionPass::scan` (linear_substitution.rs lines 69-133),
with the default `max_terms = MAX_SUBSTITUTION_TERMS`. -/
def scan (m : ConstraintMatrix F) : List PatternMatch :=
  m.constraints.filterMap (fun ct =>
    if !ct.is_linear then none
    else
      match (if ct.a.is_one then some (ct.b, ct.c)
             else if ct.b.is_one then some (ct.a, ct.c) else none) with
      | none => none
      | some (expr, result) =>
          if !result.is_single_variable then none
          else if expr.num_terms > MAX_SUBSTITUTION_TERMS then none
          else
            let target_var := result.headVar
            if target_var < m.num_public_inputs then none
            else if count_variable_usage m target_var ct.index == 0 then none
            else
              some { id := 0, pattern_type := .LinearSubstitution,
                     constraint_indices := [ct.index],
                     variable_indices := [target_var],
                     estimated_reduction := 1,
                     description := "inlinable linear definition",
                     metadata := { substitute_variable := some target_var } })

/-- `substitutions.insert(var, (expr, idx))`: `HashMap::insert` overwrites,
modelled by dropping any earlier entry for the same key. -/
def insertSub (subs : List (Nat × LinearCombination F × Nat)) (v : Nat)
    (e : LinearCombination F) (i : Nat) : List (Nat × LinearCombination F × Nat) :=
  (subs.filter (fun pr => pr.1 ≠ v)) ++ [(v, e, i)]

/-- The substitution map built by `reduce` (linear_substitution.rs lines
140-161). -/
def buildSubs (m : ConstraintMatrix F) (ms : List PatternMatch) :
    List (Nat × LinearCombination F × Nat) :=
  ms.foldl (fun subs mt =>
    if mt.pattern_type ≠ .LinearSubstitution then subs
    else
      match mt.metadata.substitute_variable with
      | none => subs
      | some v =>
          match mt.constraint_indices with
          | [] => subs
          | defining_idx :: _ =>
              match m.constraints.get? defining_idx with
              | none => subs
              | some ct =>
                  let expr := if ct.a.is_one then ct.b else ct.a
                  insertSub subs v expr defining_idx) []

/-- `substitutions.get(&var)`. -/
def lookupSub (subs : List (Nat × LinearCombination F × Nat)) (v : Nat) :
    Option (LinearCombination F × Nat) :=
  (subs.find? (fun pr => pr.1 == v)).map (fun pr => pr.2)

/-- `*new_terms.entry(var).or_insert(0) += coeff`: the accumulation map as
an association list in first-insertion order (the source's output order is
the `HashMap` iteration order; every order denotes the same linear
combination). -/
def addTermAcc (acc : List (Nat × F)) (v : Nat) (coeff : F) : List (Nat × F) :=
  if acc.any (fun pr => pr.1 == v) then
    acc.map (fun pr => if pr.1 == v then (pr.1, pr.2 + coeff) else pr)
  else acc ++ [(v, coeff)]

/-- `apply_substitutions` (linear_substitution.rs lines 211-238). -/
def apply_substitutions (lc : LinearCombination F)
    (subs : List (Nat × LinearCombination F × Nat)) : LinearCombination F :=
  let acc := lc.terms.foldl (fun acc t =>
    match lookupSub subs t.vr with
    | some (replacement, _) =>
        replacement.terms.foldl (fun acc rt =>
          addTermAcc acc rt.vr (t.coeff * rt.coeff)) acc
    | none => addTermAcc acc t.vr t.coeff) []
  ⟨(acc.filter (fun pr => !(pr.2 == 0))).map (fun pr => ⟨pr.1, pr.2⟩)⟩

/-- The rebuilding loop of `reduce` (linear_substitution.rs lines 163-185):
surviving constraints are substituted and reindexed by the running
`new_constraints.len()` counter. -/
def reindexAux (subs : List (Nat × LinearCombination F × Nat)) :
    List (Constraint F) → Nat → List (Constraint F)
  | [], _ => []
  | ct :: rest, k =>
      ⟨k, apply_substitutions ct.a subs, apply_substitutions ct.b subs,
        apply_substitutions ct.c subs⟩ :: reindexAux subs rest (k + 1)

/-- `LinearSubstitutionPass::reduce` (linear_substitution.rs lines 135-193). -/
def reduce (m : ConstraintMatrix F) (ms : List PatternMatch) :
    ConstraintMatrix F :=
  if ms.isEmpty then m
  else
    let subs := buildSubs m ms
    let constraints_to_remove := subs.map (fun pr => pr.2.2)
    { constraints :=
        reindexAux subs
          (m.constraints.filter (fun ct => !(constraints_to_remove.contains ct.index))) 0,
      num_public_inputs := m.num_public_inputs,
      num_private_witnesses := m.num_private_witnesses,
      num_variables := m.num_variables }

/-- `reduce ∘ scan`. -/
def run (m : ConstraintMatrix F) : ConstraintMatrix F := reduce m (scan m)

end LinearSubstitutionPass

/-! ### Generic lemmas about reindexing and satisfaction -/

theorem wellIndexedFrom_get? {l : List (Constraint F)} {k : Nat}
    (h : wellIndexedFrom l k = true) :
    ∀ i ct, l.get? i = some ct → ct.index = k + i := by
  induction l generalizing k with
  | nil => intro i ct hct; simp at hct
  | cons c0 rest ih =>
      simp only [wellIndexedFrom, Bool.and_eq_true, beq_iff_eq] at h
      obtain ⟨h1, h2⟩ := h
      intro i ct hct
      cases i with
      | zero =>
          simp only [List.get?_cons_zero, Option.some.injEq] at hct
          subst hct
          omega
      | succ j =>
          simp only [List.get?_cons_succ] at hct
          have := ih h2 j ct hct
          omega

theorem wellIndexed_get? {m : ConstraintMatrix F} (h : m.wellIndexed = true)
    {i : Nat} {ct : Constraint F} (hct : m.constraints.get? i = some ct) :
    ct.index = i := by
  simpa using wellIndexedFrom_get? h i ct hct

theorem wellIndexed_get?_of_mem {m : ConstraintMatrix F} (h : m.wellIndexed = true)
    {ct : Constraint F} (hct : ct ∈ m.constraints) :
    m.constraints.get? ct.index = some ct := by
  obtain ⟨n, hn⟩ := List.get?_of_mem hct
  have := wellIndexed_get? h hn
  rw [← this] at hn
  exact hn

/-- In a well-indexed matrix, a member is determined by its index. -/
theorem wellIndexed_index_inj {m : ConstraintMatrix F} (h : m.wellIndexed = true)
    {ct ct' : Constraint F} (hct : ct ∈ m.constraints) (hct' : ct' ∈ m.constraints)
    (hidx : ct.index = ct'.index) : ct = ct' := by
  have h1 := wellIndexed_get?_of_mem h hct
  have h2 := wellIndexed_get?_of_mem h hct'
  rw [hidx] at h1
  rw [h1] at h2
  exact Option.some.injEq _ _ ▸ h2.symm ▸ rfl

theorem mem_withConstraintsAux {m : ConstraintMatrix F} {ids : List Nat} {k : Nat}
    {ct : Constraint F} (h : ct ∈ withConstraintsAux m ids k) :
    ∃ i ∈ ids, ∃ ct', m.constraints.get? i = some ct' ∧
      ct.a = ct'.a ∧ ct.b = ct'.b ∧ ct.c = ct'.c := by
  induction ids generalizing k with
  | nil => simp [withConstraintsAux] at h
  | cons i rest ih =>
      simp only [withConstraintsAux] at h
      cases hget : m.constraints.get? i with
      | none =>
          rw [hget] at h
          obtain ⟨j, hj, ct', hct', heq⟩ := ih h
          exact ⟨j, by simp [hj], ct', hct', heq⟩
      | some ct' =>
          rw [hget] at h
          rcases List.mem_cons.mp h with rfl | h
          · exact ⟨i, by simp, ct', hget, rfl, rfl, rfl⟩
          · obtain ⟨j, hj, ct'', hct'', heq⟩ := ih h
            exact ⟨j, by simp [hj], ct'', hct'', heq⟩

theorem withConstraintsAux_mem {m : ConstraintMatrix F} {ids : List Nat}
    {i : Nat} (hi : i ∈ ids) {ct' : Constraint F}
    (hget : m.constraints.get? i = some ct') :
    ∀ k, ∃ ct ∈ withConstraintsAux m ids k,
      ct.a = ct'.a ∧ ct.b = ct'.b ∧ ct.c = ct'.c := by
  induction ids with
  | nil => simp at hi
  | cons j rest ih =>
      intro k
      rcases List.mem_cons.mp hi with rfl | hi
      · refine ⟨⟨k, ct'.a, ct'.b, ct'.c⟩, ?_, rfl, rfl, rfl⟩
        unfold withConstraintsAux
        rw [hget]
        exact List.mem_cons_self _ _
      · obtain ⟨ct, hct, heq⟩ := ih hi (k + 1)
        cases hget2 : m.constraints.get? j with
        | none =>
            refine ⟨ct, ?_, heq⟩
            unfold withConstraintsAux
            rw [hget2]
            exact hct
        | some c2 =>
            refine ⟨ct, ?_, heq⟩
            unfold withConstraintsAux
            rw [hget2]
            exact List.mem_cons_of_mem _ hct

theorem Constraint.sat_of_eq {ct ct' : Constraint F} (ha : ct.a = ct'.a)
    (hb : ct.b = ct'.b) (hc : ct.c = ct'.c) {x : Nat → F} (h : ct'.sat x) :
    ct.sat x := by
  unfold Constraint.sat at h ⊢
  rw [ha, hb, hc]
  exact h

/-- Forward preservation for every index-selection: the selected constraints
all come from the original matrix. -/
theorem sat_with_constraints {m : ConstraintMatrix F} {x : Nat → F}
    (h : m.sat x) (ids : List Nat) : (m.with_constraints ids).sat x := by
  intro ct hct
  obtain ⟨i, _, ct', hget, ha, hb, hc⟩ := mem_withConstraintsAux hct
  exact Constraint.sat_of_eq ha hb hc (h ct' (List.get?_mem hget))

theorem sat_without_constraints {m : ConstraintMatrix F} {x : Nat → F}
    (h : m.sat x) (ids : List Nat) : (m.without_constraints ids).sat x :=
  sat_with_constraints h _

/-- A constraint whose index is not removed survives removal (in a
well-indexed matrix), so its satisfaction follows from that of the reduced
matrix. -/
theorem sat_of_without_constraints {m : ConstraintMatrix F} {x : Nat → F}
    (hw : m.wellIndexed = true) {ids : List Nat}
    (h : (m.without_constraints ids).sat x) {ct : Constraint F}
    (hct : ct ∈ m.constraints) (hni : ¬ ct.index ∈ ids) : ct.sat x := by
  have hget : m.constraints.get? ct.index = some ct := wellIndexed_get?_of_mem hw hct
  have hlt : ct.index < m.constraints.length := by
    rcases List.get?_eq_some.mp hget with ⟨hl, -⟩
    exact hl
  have hkept : ct.index ∈ (List.range m.constraints.length).filter
      (fun i => !ids.contains i) := by
    rw [List.mem_filter]
    refine ⟨List.mem_range.mpr hlt, ?_⟩
    simp only [Bool.not_eq_true']
    exact (Bool.not_eq_true _).mp (by simpa using hni)
  obtain ⟨ct', hct', ha, hb, hc⟩ := withConstraintsAux_mem hkept hget 0
  exact Constraint.sat_of_eq ha.symm hb.symm hc.symm (h ct' hct')

/-! ### Semantic lemmas for the deduplication pass -/

theorem sum_filter_eq {α : Type} (l : List α) (g : α → F) (q : α → Bool)
    (h : ∀ a ∈ l, q a = false → g a = 0) :
    ((l.filter q).map g).sum = (l.map g).sum := by
  induction l with
  | nil => rfl
  | cons a rest ih =>
      have ih' := ih (fun b hb => h b (by simp [hb]))
      by_cases ha : q a = true
      · simp [List.filter_cons, ha, ih']
      · simp only [Bool.not_eq_true] at ha
        have h0 : g a = 0 := h a (by simp) ha
        simp [List.filter_cons, ha, ih', h0]

/-- The evaluation of a linear combination is determined by its full-hash
key. -/
theorem eval_eq_sum_fullKey (lc : LinearCombination F) (x : Nat → F) :
    lc.eval x = (lc.fullKey.map (fun pr => pr.2 * x pr.1)).sum := by
  unfold LinearCombination.eval LinearCombination.fullKey
  have hperm := List.mergeSort_perm
    ((lc.terms.filter (fun t => !(t.coeff == 0))).map (fun t => (t.vr, t.coeff)))
    (fun pr qr => decide (pr.1 ≤ qr.1))
  rw [(hperm.map (fun pr => pr.2 * x pr.1)).sum_eq, List.map_map]
  have : ((fun pr : Nat × F => pr.2 * x pr.1) ∘ fun t : Term F => (t.vr, t.coeff)) =
      fun t : Term F => t.coeff * x t.vr := rfl
  rw [this]
  exact (sum_filter_eq lc.terms _ _ (fun t _ ht => by
    have : t.coeff = 0 := by simpa using ht
    rw [this, zero_mul])).symm

theorem eval_eq_of_fullKey {lca lcb : LinearCombination F}
    (h : lca.fullKey = lcb.fullKey) (x : Nat → F) : lca.eval x = lcb.eval x := by
  rw [eval_eq_sum_fullKey, eval_eq_sum_fullKey, h]

theorem sat_of_fullKey {ca cb : Constraint F} (h : ca.fullKey = cb.fullKey)
    {x : Nat → F} (hs : ca.sat x) : cb.sat x := by
  obtain ⟨h1, h2, h3⟩ : ca.a.fullKey = cb.a.fullKey ∧ ca.b.fullKey = cb.b.fullKey ∧
      ca.c.fullKey = cb.c.fullKey := by
    unfold Constraint.fullKey at h
    exact ⟨congrArg (fun pr => pr.1) h, congrArg (fun pr => pr.2.1) h,
      congrArg (fun pr => pr.2.2) h⟩
  unfold Constraint.sat at hs ⊢
  rw [← eval_eq_of_fullKey h1 x, ← eval_eq_of_fullKey h2 x, ← eval_eq_of_fullKey h3 x]
  exact hs

namespace DeduplicationPass

theorem mem_bucket {m : ConstraintMatrix F}
    {k : List (Nat × F) × List (Nat × F) × List (Nat × F)} {i : Nat} :
    i ∈ bucket m k ↔ ∃ ct ∈ m.constraints, ct.fullKey = k ∧ ct.index = i := by
  unfold bucket
  constructor
  · intro h
    obtain ⟨ct, hct, rfl⟩ := List.mem_map.mp h
    rw [List.mem_filter] at hct
    exact ⟨ct, hct.1, by simpa using hct.2, rfl⟩
  · rintro ⟨ct, hct, hk, rfl⟩
    exact List.mem_map.mpr ⟨ct, List.mem_filter.mpr ⟨hct, by simpa using hk⟩, rfl⟩

theorem bucket_key_eq {m : ConstraintMatrix F} (hw : m.wellIndexed = true)
    {i : Nat} {k k' : List (Nat × F) × List (Nat × F) × List (Nat × F)}
    (h : i ∈ bucket m k) (h' : i ∈ bucket m k') : k = k' := by
  obtain ⟨ct, hct, hk, hi⟩ := mem_bucket.mp h
  obtain ⟨ct', hct', hk', hi'⟩ := mem_bucket.mp h'
  have : ct = ct' := wellIndexed_index_inj hw hct hct' (by rw [hi, hi'])
  rw [← hk, ← hk', this]

theorem dedup_scan_mem_spec {m : ConstraintMatrix F} {mt : PatternMatch}
    (h : mt ∈ scan m) :
    ∃ k i0 i1 rest first,
      bucket m k = i0 :: i1 :: rest ∧
      m.constraints.get? i0 = some first ∧
      mt.pattern_type = .Duplicate ∧
      mt.metadata.canonical_index = some i0 ∧
      mt.constraint_indices = i0 :: (i1 :: rest).filter (fun i =>
        match m.constraints.get? i with
        | some other => constraints_equal first other
        | none => false) := by
  obtain ⟨k, hk, hf⟩ := List.mem_filterMap.mp h
  rcases hbk : bucket m k with _ | ⟨i0, _ | ⟨i1, rest⟩⟩
  · simp only [hbk] at hf
    exact Option.noConfusion hf
  · simp only [hbk] at hf
    exact Option.noConfusion hf
  · simp only [hbk] at hf
    cases hget : m.constraints.get? i0
    · simp only [hget] at hf
      exact Option.noConfusion hf
    · rename_i first
      simp only [hget] at hf
      split at hf
      · rw [Option.some.injEq] at hf
        subst hf
        exact ⟨k, i0, i1, rest, first, hbk, hget, rfl, rfl, rfl⟩
      · simp at hf

theorem mem_toRemove {ms : List PatternMatch} {i : Nat} (h : i ∈ toRemove ms) :
    ∃ mt ∈ ms, mt.pattern_type = .Duplicate ∧ ∃ c0,
      mt.metadata.canonical_index = some c0 ∧ i ∈ mt.constraint_indices ∧ i ≠ c0 := by
  unfold toRemove at h
  rw [List.mem_dedup] at h
  obtain ⟨mt, hmt, hmem⟩ := List.mem_flatMap.mp h
  by_cases hd : mt.pattern_type = PatternType.Duplicate
  · rw [if_pos (by simp [hd])] at hmem
    cases hc : mt.metadata.canonical_index <;> rw [hc] at hmem
    · simp at hmem
    · rename_i c0
      rw [List.mem_filter] at hmem
      exact ⟨mt, hmt, hd, c0, hc, hmem.1, by simpa using hmem.2⟩
  · rw [if_neg (by simpa using hd)] at hmem
    simp at hmem

/-- C2 holds exactly for the deduplication pass: removing confirmed
duplicates preserves the solution set in both directions. -/
theorem solution_set_preserved {m : ConstraintMatrix F} (hw : m.wellIndexed = true)
    (x : Nat → F) : m.sat x ↔ (run m).sat x := by
  unfold run reduce
  by_cases he : (scan m).isEmpty
  · rw [if_pos he]
  · rw [if_neg he]
    constructor
    · intro h
      exact sat_without_constraints h _
    · intro h ct hct
      by_cases hin : ct.index ∈ toRemove (scan m)
      · obtain ⟨mt, hmt, -, c0, hc0, hmem, hne⟩ := mem_toRemove hin
        obtain ⟨k, i0, i1, rest, first, hbk, hget, -, hc0', hci⟩ := dedup_scan_mem_spec hmt
        have hi0 : c0 = i0 := by
          rw [hc0] at hc0'
          exact Option.some.inj hc0'
        subst hi0
        -- `ct.index` lies in the tail of the bucket for `k`
        rw [hci] at hmem
        have hinbucket : ct.index ∈ bucket m k := by
          rcases List.mem_cons.mp hmem with h1 | h1
          · exact absurd h1 hne
          · rw [hbk]
            exact List.mem_cons_of_mem _ (List.mem_of_mem_filter h1)
        -- the constraint with that index is `ct` itself, so `ct` has key `k`
        obtain ⟨ctk, hctk, hkey, hidx⟩ := mem_bucket.mp hinbucket
        have hctct : ctk = ct := wellIndexed_index_inj hw hctk hct hidx
        subst hctct
        -- the canonical constraint `first` also has key `k` and survives
        have hi0bucket : c0 ∈ bucket m k := by rw [hbk]; exact List.mem_cons_self _ _
        have hfirstmem : first ∈ m.constraints := List.get?_mem hget
        have hfirstidx : first.index = c0 := wellIndexed_get? hw hget
        have hfirstkey : first.fullKey = k := by
          obtain ⟨ctf, hctf, hkf, hif⟩ := mem_bucket.mp hi0bucket
          have : ctf = first :=
            wellIndexed_index_inj hw hctf hfirstmem (by rw [hif, hfirstidx])
          rw [← hkf, this]
        have hcanon_kept : ¬ first.index ∈ toRemove (scan m) := by
          intro hbad
          rw [hfirstidx] at hbad
          obtain ⟨mt', hmt', -, c0', hc0'', hmem', hne'⟩ := mem_toRemove hbad
          obtain ⟨k', i0', i1', rest', first', hbk', hget', -, hc0''', hci'⟩ :=
            dedup_scan_mem_spec hmt'
          have hi0' : c0' = i0' := by
            rw [hc0''] at hc0'''
            exact Option.some.inj hc0'''
          subst hi0'
          rw [hci'] at hmem'
          have hinbucket' : c0 ∈ bucket m k' := by
            rcases List.mem_cons.mp hmem' with h1 | h1
            · exact absurd h1 hne'
            · rw [hbk']
              exact List.mem_cons_of_mem _ (List.mem_of_mem_filter h1)
          have hkk : k = k' := bucket_key_eq hw hi0bucket hinbucket'
          subst hkk
          rw [hbk] at hbk'
          have : c0 = c0' := (List.cons.injEq _ _ _ _ ▸ hbk').1
          exact hne' this
        have hfirst_sat : first.sat x :=
          sat_of_without_constraints hw h hfirstmem hcanon_kept
        exact sat_of_fullKey (by rw [hfirstkey, hkey]) hfirst_sat
      · exact sat_of_without_constraints hw h hct hin

end DeduplicationPass

/-- A constraint whose index is not in the removal set survives
`without_constraints` with its three linear combinations intact. -/
theorem survives_without_constraints {m : ConstraintMatrix F}
    (hw : m.wellIndexed = true) {ct : Constraint F} (hct : ct ∈ m.constraints)
    {ids : List Nat} (hni : ¬ ct.index ∈ ids) :
    ∃ ct' ∈ (m.without_constraints ids).constraints,
      ct'.a = ct.a ∧ ct'.b = ct.b ∧ ct'.c = ct.c := by
  have hget : m.constraints.get? ct.index = some ct := wellIndexed_get?_of_mem hw hct
  have hlt : ct.index < m.constraints.length := by
    rcases List.get?_eq_some.mp hget with ⟨hl, -⟩
    exact hl
  have hkept : ct.index ∈ (List.range m.constraints.length).filter
      (fun i => !ids.contains i) := by
    rw [List.mem_filter]
    refine ⟨List.mem_range.mpr hlt, ?_⟩
    simp only [Bool.not_eq_true']
    exact (Bool.not_eq_true _).mp (by simpa using hni)
  exact withConstraintsAux_mem hkept hget 0

namespace ConstantFoldingPass

/-- The match emitted by `scan` for a constant constraint. -/
theorem scan_emits {m : ConstraintMatrix F} {ct : Constraint F}
    (hct : ct ∈ m.constraints) (hc : ct.is_constant = true) :
    ∃ mt ∈ scan m, mt.pattern_type = .Constant ∧
      mt.constraint_indices = [ct.index] ∧
      (mt.estimated_reduction > 0 ↔
        compute_constant_value ct.a * compute_constant_value ct.b =
          compute_constant_value ct.c) := by
  have hmem : (⟨0, PatternType.Constant, [ct.index], [],
      (if compute_constant_value ct.a * compute_constant_value ct.b ==
          compute_constant_value ct.c then 1 else 0),
      (if compute_constant_value ct.a * compute_constant_value ct.b ==
          compute_constant_value ct.c then
        "constant and satisfied (can be removed)"
      else "constant but UNSATISFIED (system is invalid!)"),
      ⟨none, none⟩⟩ : PatternMatch) ∈ scan m := by
    apply List.mem_filterMap.mpr
    refine ⟨ct, hct, ?_⟩
    rw [if_pos hc]
  refine ⟨_, hmem, rfl, rfl, ?_⟩
  by_cases hs : compute_constant_value ct.a * compute_constant_value ct.b =
      compute_constant_value ct.c
  · simp [hs]
  · simp [hs]

theorem constfold_scan_mem_spec {m : ConstraintMatrix F} {mt : PatternMatch}
    (h : mt ∈ scan m) :
    ∃ ct ∈ m.constraints, ct.is_constant = true ∧
      mt.pattern_type = .Constant ∧
      mt.constraint_indices = [ct.index] ∧
      (mt.estimated_reduction > 0 ↔
        compute_constant_value ct.a * compute_constant_value ct.b =
          compute_constant_value ct.c) := by
  obtain ⟨ct, hct, hf⟩ := List.mem_filterMap.mp h
  by_cases hc : ct.is_constant = true
  · rw [if_pos hc, Option.some.injEq] at hf
    subst hf
    refine ⟨ct, hct, hc, rfl, rfl, ?_⟩
    by_cases hs : compute_constant_value ct.a * compute_constant_value ct.b =
        compute_constant_value ct.c
    · simp [hs]
    · simp [hs]
  · rw [if_neg hc] at hf
    exact Option.noConfusion hf

/-- Membership in the removal set of `reduce` applied to `scan`'s matches. -/
theorem mem_removal {m : ConstraintMatrix F} {j : Nat} :
    (j ∈ ((scan m).filter (fun mt =>
        mt.pattern_type == PatternType.Constant && mt.estimated_reduction > 0)).flatMap
          (fun mt => mt.constraint_indices)) ↔
      ∃ ctd ∈ m.constraints, ctd.is_constant = true ∧
        compute_constant_value ctd.a * compute_constant_value ctd.b =
          compute_constant_value ctd.c ∧ j = ctd.index := by
  constructor
  · intro h
    obtain ⟨mt, hmt, hj⟩ := List.mem_flatMap.mp h
    rw [List.mem_filter, Bool.and_eq_true] at hmt
    obtain ⟨hscan, -, hest⟩ := hmt
    obtain ⟨ctd, hctd, hcn, -, hidx, hiff⟩ := constfold_scan_mem_spec hscan
    rw [hidx] at hj
    refine ⟨ctd, hctd, hcn, hiff.mp (by simpa using hest), by simpa using hj⟩
  · rintro ⟨ctd, hctd, hcn, hsat, rfl⟩
    obtain ⟨mt, hmt, hpt, hidx, hiff⟩ := scan_emits hctd hcn
    refine List.mem_flatMap.mpr ⟨mt, ?_, by rw [hidx]; exact List.mem_singleton.mpr rfl⟩
    rw [List.mem_filter, Bool.and_eq_true]
    exact ⟨hmt, by simp [hpt], by simpa using hiff.mpr hsat⟩

/-- Every assignment satisfying the original matrix satisfies the reduced
matrix (the pass only removes constraints). -/
theorem constfold_run_forward {m : ConstraintMatrix F} {x : Nat → F} (h : m.sat x) :
    (run m).sat x := by
  unfold run reduce
  by_cases he : (scan m).isEmpty
  · rw [if_pos he]
    exact h
  · rw [if_neg he]
    exact sat_without_constraints h _

/-- C9: for a constant constraint (constant A and B sides), the pass removes
it exactly when the product of the two constant sides equals the constant
sum of the C side; an unsatisfied constant constraint is reported with
`estimated_reduction = 0` and is retained unchanged, never silently
dropped. -/
theorem constant_spec (m : ConstraintMatrix F) (hw : m.wellIndexed = true)
    (ct : Constraint F) (hct : ct ∈ m.constraints) (hc : ct.is_constant = true) :
    ((∃ ct' ∈ (run m).constraints, ct'.a = ct.a ∧ ct'.b = ct.b ∧ ct'.c = ct.c) ↔
      ¬ compute_constant_value ct.a * compute_constant_value ct.b =
          compute_constant_value ct.c) ∧
    (¬ compute_constant_value ct.a * compute_constant_value ct.b =
        compute_constant_value ct.c →
      ∃ mt ∈ scan m, mt.constraint_indices = [ct.index] ∧
        mt.estimated_reduction = 0) := by
  have hne : ¬ (scan m).isEmpty := by
    obtain ⟨mt, hmt, -⟩ := scan_emits hct hc
    intro hemp
    rw [List.isEmpty_iff] at hemp
    rw [hemp] at hmt
    exact List.not_mem_nil _ hmt
  constructor
  · unfold run reduce
    rw [if_neg hne]
    constructor
    · rintro ⟨ct', hct', ha, hb, hcc⟩ hsat
      obtain ⟨i, hi, orig, hget, ha', hb', hc'⟩ := mem_withConstraintsAux hct'
      have horig_mem : orig ∈ m.constraints := List.get?_mem hget
      have hoi : orig.index = i := wellIndexed_get? hw hget
      have hfa : orig.a = ct.a := by rw [← ha', ha]
      have hfb : orig.b = ct.b := by rw [← hb', hb]
      have hfc : orig.c = ct.c := by rw [← hc', hcc]
      have horig_const : orig.is_constant = true := by
        unfold Constraint.is_constant at hc ⊢
        rw [hfa, hfb]
        exact hc
      have hrem : i ∈ ((scan m).filter (fun mt =>
          mt.pattern_type == PatternType.Constant &&
            mt.estimated_reduction > 0)).flatMap (fun mt => mt.constraint_indices) := by
        have := mem_removal.mpr ⟨orig, horig_mem, horig_const,
          by rw [hfa, hfb, hfc]; exact hsat, rfl⟩
        rwa [hoi] at this
      rw [List.mem_filter] at hi
      have hni := hi.2
      rw [Bool.not_eq_true'] at hni
      have hcontains : (((scan m).filter (fun mt =>
          mt.pattern_type == PatternType.Constant &&
            mt.estimated_reduction > 0)).flatMap
              (fun mt => mt.constraint_indices)).contains i = true :=
        List.elem_iff.mpr hrem
      rw [hcontains] at hni
      exact Bool.noConfusion hni
    · intro hnsat
      have hni : ¬ ct.index ∈ ((scan m).filter (fun mt =>
          mt.pattern_type == PatternType.Constant &&
            mt.estimated_reduction > 0)).flatMap (fun mt => mt.constraint_indices) := by
        intro hbad
        obtain ⟨ctd, hctd, hcn, hsat, hidx⟩ := mem_removal.mp hbad
        have : ctd = ct := wellIndexed_index_inj hw hctd hct hidx.symm
        rw [this] at hsat
        exact hnsat hsat
      obtain ⟨ct', hct', ha, hb, hcc⟩ := survives_without_constraints hw hct hni
      exact ⟨ct', hct', ha, hb, hcc⟩
  · intro hnsat
    obtain ⟨mt, hmt, -, hidx, hiff⟩ := scan_emits hct hc
    refine ⟨mt, hmt, hidx, ?_⟩
    exact Nat.eq_zero_of_not_pos (fun h => hnsat (hiff.mp h))

end ConstantFoldingPass

namespace DeadVariablePass

/-- Every assignment satisfying the original matrix satisfies the reduced
matrix (the pass only removes constraints). -/
theorem deadvar_run_forward {m : ConstraintMatrix F} {x : Nat → F} (h : m.sat x) :
    (run m).sat x := by
  unfold run reduce
  by_cases he : (scan m).isEmpty
  · rw [if_pos he]
    exact h
  · rw [if_neg he]
    exact sat_without_constraints h _

end DeadVariablePass

/-! ### Semantic lemmas for the linear-substitution pass -/

theorem LinearCombination.eval_of_is_one {lc : LinearCombination F}
    (h : lc.is_one = true) (x : Nat → F) : lc.eval x = x 0 := by
  unfold LinearCombination.is_one at h
  rcases hterm : lc.terms with _ | ⟨t, _ | ⟨u, rest⟩⟩ <;> rw [hterm] at h
  · exact Bool.noConfusion h
  · rw [Bool.and_eq_true] at h
    have h0 : t.vr = 0 := by simpa [Term.is_constant] using h.1
    have h1 : t.coeff = 1 := by simpa using h.2
    unfold LinearCombination.eval
    rw [hterm]
    simp [h0, h1]
  · exact Bool.noConfusion h

theorem LinearCombination.eval_of_single_unit {lc : LinearCombination F}
    (h : lc.is_single_variable = true) (hcoeff : ∀ t ∈ lc.terms, t.coeff = 1)
    (x : Nat → F) : lc.eval x = x lc.headVar := by
  unfold LinearCombination.is_single_variable at h
  rcases hterm : lc.terms with _ | ⟨t, _ | ⟨u, rest⟩⟩ <;> rw [hterm] at h
  · exact Bool.noConfusion h
  · have h1 : t.coeff = 1 := hcoeff t (by rw [hterm]; simp)
    unfold LinearCombination.eval LinearCombination.headVar
    rw [hterm]
    simp [h1]
  · exact Bool.noConfusion h

namespace LinearSubstitutionPass

/-- The keys of the accumulation list are pairwise distinct. -/
def KeysNodup (acc : List (Nat × F)) : Prop := (acc.map Prod.fst).Nodup

theorem addTermAcc_keys {acc : List (Nat × F)} (h : KeysNodup acc) (v : Nat)
    (c : F) : KeysNodup (addTermAcc acc v c) := by
  unfold addTermAcc
  by_cases hany : acc.any (fun pr => pr.1 == v) = true
  · rw [if_pos hany]
    unfold KeysNodup at h ⊢
    have hkeys : ((acc.map (fun pr => if pr.1 == v then (pr.1, pr.2 + c) else pr)).map
        Prod.fst) = acc.map Prod.fst := by
      rw [List.map_map]
      apply List.map_congr_left
      intro pr _
      simp only [Function.comp_apply]
      split <;> rfl
    rw [hkeys]
    exact h
  · rw [if_neg hany]
    unfold KeysNodup at h ⊢
    rw [List.map_append]
    refine List.Nodup.append h (by simp) ?_
    intro a ha hb
    simp only [List.map_cons, List.map_nil, List.mem_singleton] at hb
    subst hb
    obtain ⟨pr, hpr, hfst⟩ := List.mem_map.mp ha
    rw [List.any_eq_true] at hany
    exact hany ⟨pr, hpr, by simp [hfst]⟩

theorem addTermAcc_sum (x : Nat → F) (v : Nat) (c : F) :
    ∀ acc : List (Nat × F), KeysNodup acc →
      ((addTermAcc acc v c).map (fun pr => pr.2 * x pr.1)).sum =
        (acc.map (fun pr => pr.2 * x pr.1)).sum + c * x v := by
  intro acc
  induction acc with
  | nil =>
      intro _
      simp [addTermAcc]
  | cons pr rest ih =>
      intro h
      have hrest : KeysNodup rest := by
        unfold KeysNodup at h ⊢
        exact (List.nodup_cons.mp h).2
      unfold addTermAcc
      by_cases hpr : (pr.1 == v) = true
      · rw [if_pos (by simp [List.any_cons, hpr])]
        have hv : pr.1 = v := by simpa using hpr
        have hnotin : pr.1 ∉ rest.map Prod.fst := (List.nodup_cons.mp h).1
        have hrestid : rest.map (fun qr => if qr.1 == v then (qr.1, qr.2 + c) else qr)
            = rest := by
          have : ∀ qr ∈ rest, (if qr.1 == v then (qr.1, qr.2 + c) else qr) = qr := by
            intro qr hqr
            rw [if_neg ?_]
            intro habs
            have : qr.1 = v := by simpa using habs
            exact hnotin (List.mem_map.mpr ⟨qr, hqr, by rw [this, hv]⟩)
          calc rest.map (fun qr => if qr.1 == v then (qr.1, qr.2 + c) else qr)
              = rest.map (fun qr => qr) := List.map_congr_left this
            _ = rest := List.map_id _
        rw [List.map_cons, if_pos hpr, hrestid]
        simp only [List.map_cons, List.sum_cons]
        rw [hv]
        ring
      · by_cases hra : rest.any (fun qr => qr.1 == v) = true
        · rw [if_pos (by simp [List.any_cons, hra])]
          have hstep := ih hrest
          unfold addTermAcc at hstep
          rw [if_pos hra] at hstep
          rw [List.map_cons, if_neg hpr]
          simp only [List.map_cons, List.sum_cons]
          rw [hstep]
          ring
        · rw [if_neg (by simp [List.any_cons, hpr, hra])]
          have hstep := ih hrest
          unfold addTermAcc at hstep
          rw [if_neg hra] at hstep
          simp only [List.cons_append, List.map_cons, List.sum_cons]
          rw [hstep]
          ring

theorem foldl_addTermAcc_sum (x : Nat → F) (cf : F) (rts : List (Term F)) :
    ∀ acc : List (Nat × F), KeysNodup acc →
      KeysNodup (rts.foldl (fun acc rt => addTermAcc acc rt.vr (cf * rt.coeff)) acc) ∧
      ((rts.foldl (fun acc rt => addTermAcc acc rt.vr (cf * rt.coeff)) acc).map
          (fun pr => pr.2 * x pr.1)).sum =
        (acc.map (fun pr => pr.2 * x pr.1)).sum +
          cf * (rts.map (fun t => t.coeff * x t.vr)).sum := by
  induction rts with
  | nil =>
      intro acc h
      refine ⟨h, by simp⟩
  | cons rt rest ih =>
      intro acc h
      have h1 := addTermAcc_keys h rt.vr (cf * rt.coeff)
      have h2 := addTermAcc_sum x rt.vr (cf * rt.coeff) acc h
      obtain ⟨ka, sa⟩ := ih _ h1
      refine ⟨ka, ?_⟩
      rw [List.foldl_cons] at *
      rw [sa, h2, List.map_cons, List.sum_cons]
      ring

theorem lookupSub_mem {subs : List (Nat × LinearCombination F × Nat)} {v : Nat}
    {e : LinearCombination F} {i : Nat} (h : lookupSub subs v = some (e, i)) :
    (v, e, i) ∈ subs := by
  unfold lookupSub at h
  cases hf : subs.find? (fun pr => pr.1 == v) with
  | none => rw [hf] at h; exact Option.noConfusion h
  | some pr =>
      rw [hf] at h
      have hpr : pr ∈ subs := List.mem_of_find?_eq_some hf
      have hv : pr.1 = v := by simpa using List.find?_some hf
      have h2 : pr.2 = (e, i) := by simpa using h
      have : pr = (v, e, i) := by
        rw [← hv, ← h2]
      rw [← this]
      exact hpr

/-- Substituting preserves the value of a linear combination whenever every
substitution entry's expression evaluates to the substituted variable's
value. -/
theorem apply_substitutions_eval (x : Nat → F)
    (subs : List (Nat × LinearCombination F × Nat))
    (hsub : ∀ pr ∈ subs, (pr.2.1 : LinearCombination F).eval x = x pr.1)
    (lc : LinearCombination F) :
    (apply_substitutions lc subs).eval x = lc.eval x := by
  have main : ∀ (ts : List (Term F)) (acc : List (Nat × F)), KeysNodup acc →
      KeysNodup (ts.foldl (fun acc t =>
        match lookupSub subs t.vr with
        | some (replacement, _) =>
            replacement.terms.foldl (fun acc rt =>
              addTermAcc acc rt.vr (t.coeff * rt.coeff)) acc
        | none => addTermAcc acc t.vr t.coeff) acc) ∧
      ((ts.foldl (fun acc t =>
        match lookupSub subs t.vr with
        | some (replacement, _) =>
            replacement.terms.foldl (fun acc rt =>
              addTermAcc acc rt.vr (t.coeff * rt.coeff)) acc
        | none => addTermAcc acc t.vr t.coeff) acc).map
          (fun pr => pr.2 * x pr.1)).sum =
        (acc.map (fun pr => pr.2 * x pr.1)).sum +
          (ts.map (fun t => t.coeff * x t.vr)).sum := by
    intro ts
    induction ts with
    | nil =>
        intro acc h
        refine ⟨h, by simp⟩
    | cons t rest ih =>
        intro acc h
        rw [List.foldl_cons]
        cases hlk : lookupSub subs t.vr with
        | none =>
            have h1 := addTermAcc_keys h t.vr t.coeff
            have h2 := addTermAcc_sum x t.vr t.coeff acc h
            obtain ⟨ka, sa⟩ := ih _ h1
            refine ⟨ka, ?_⟩
            rw [sa, h2, List.map_cons, List.sum_cons]
            ring
        | some pr2 =>
            obtain ⟨replacement, i⟩ := pr2
            have hmem := lookupSub_mem hlk
            have hrep : replacement.eval x = x t.vr := hsub _ hmem
            obtain ⟨k1, s1⟩ := foldl_addTermAcc_sum x t.coeff replacement.terms acc h
            obtain ⟨ka, sa⟩ := ih _ k1
            refine ⟨ka, ?_⟩
            rw [sa, s1, List.map_cons, List.sum_cons]
            have : (replacement.terms.map (fun t => t.coeff * x t.vr)).sum =
                x t.vr := hrep
            rw [this]
            ring
  obtain ⟨-, hsum⟩ := main lc.terms [] (by simp [KeysNodup])
  unfold apply_substitutions
  unfold LinearCombination.eval
  rw [List.map_map]
  have hcomp : ((fun t : Term F => t.coeff * x t.vr) ∘ fun pr : Nat × F =>
      Term.mk pr.1 pr.2) = fun pr : Nat × F => pr.2 * x pr.1 := rfl
  rw [hcomp, sum_filter_eq _ _ _ (fun pr _ hz => by
    have : pr.2 = 0 := by simpa using hz
    rw [this, zero_mul])]
  rw [hsum]
  simp [LinearCombination.eval]

theorem mem_reindexAux {subs : List (Nat × LinearCombination F × Nat)}
    {l : List (Constraint F)} {k : Nat} {ct' : Constraint F}
    (h : ct' ∈ reindexAux subs l k) :
    ∃ ct ∈ l, ct'.a = apply_substitutions ct.a subs ∧
      ct'.b = apply_substitutions ct.b subs ∧
      ct'.c = apply_substitutions ct.c subs := by
  induction l generalizing k with
  | nil => simp [reindexAux] at h
  | cons ct rest ih =>
      unfold reindexAux at h
      rcases List.mem_cons.mp h with rfl | h
      · exact ⟨ct, by simp, rfl, rfl, rfl⟩
      · obtain ⟨ct0, hct0, heq⟩ := ih h
        exact ⟨ct0, by simp [hct0], heq⟩

theorem linsub_scan_mem_spec {m : ConstraintMatrix F} {mt : PatternMatch}
    (h : mt ∈ scan m) :
    ∃ ctd ∈ m.constraints,
      (ctd.a.is_one = true ∨ (ctd.a.is_one = false ∧ ctd.b.is_one = true)) ∧
      ctd.c.is_single_variable = true ∧
      mt.pattern_type = PatternType.LinearSubstitution ∧
      mt.constraint_indices = [ctd.index] ∧
      mt.metadata.substitute_variable = some ctd.c.headVar := by
  obtain ⟨ctd, hctd, hf⟩ := List.mem_filterMap.mp h
  by_cases hlin : ctd.is_linear = true
  · rw [if_neg (by simp [hlin])] at hf
    by_cases hai : ctd.a.is_one = true
    · rw [if_pos hai] at hf
      simp only at hf
      by_cases hsv : ctd.c.is_single_variable = true
      · rw [if_neg (by simp [hsv])] at hf
        by_cases hnt : ctd.b.num_terms > MAX_SUBSTITUTION_TERMS
        · rw [if_pos hnt] at hf
          exact Option.noConfusion hf
        · rw [if_neg hnt] at hf
          by_cases hpub : ctd.c.headVar < m.num_public_inputs
          · rw [if_pos hpub] at hf
            exact Option.noConfusion hf
          · rw [if_neg hpub] at hf
            by_cases husage : (count_variable_usage m ctd.c.headVar ctd.index == 0) = true
            · rw [if_pos husage] at hf
              exact Option.noConfusion hf
            · rw [if_neg husage] at hf
              rw [Option.some.injEq] at hf
              subst hf
              exact ⟨ctd, hctd, Or.inl hai, hsv, rfl, rfl, rfl⟩
      · rw [if_pos (by simp [hsv])] at hf
        exact Option.noConfusion hf
    · by_cases hbi : ctd.b.is_one = true
      · rw [if_neg (by simp [hai]), if_pos hbi] at hf
        simp only at hf
        by_cases hsv : ctd.c.is_single_variable = true
        · rw [if_neg (by simp [hsv])] at hf
          by_cases hnt : ctd.a.num_terms > MAX_SUBSTITUTION_TERMS
          · rw [if_pos hnt] at hf
            exact Option.noConfusion hf
          · rw [if_neg hnt] at hf
            by_cases hpub : ctd.c.headVar < m.num_public_inputs
            · rw [if_pos hpub] at hf
              exact Option.noConfusion hf
            · rw [if_neg hpub] at hf
              by_cases husage : (count_variable_usage m ctd.c.headVar ctd.index == 0) = true
              · rw [if_pos husage] at hf
                exact Option.noConfusion hf
              · rw [if_neg husage] at hf
                rw [Option.some.injEq] at hf
                subst hf
                exact ⟨ctd, hctd, Or.inr ⟨by simpa using hai, hbi⟩, hsv, rfl, rfl, rfl⟩
        · rw [if_pos (by simp [hsv])] at hf
          exact Option.noConfusion hf
      · exfalso
        unfold Constraint.is_linear at hlin
        rw [Bool.or_eq_true] at hlin
        rcases hlin with h1 | h1
        · exact hai h1
        · exact hbi h1
  · rw [if_pos (by simp [hlin])] at hf
    exact Option.noConfusion hf

theorem buildSubs_mem {m : ConstraintMatrix F} (ms : List PatternMatch) :
    ∀ pr ∈ buildSubs m ms, ∃ mt ∈ ms,
      mt.pattern_type = PatternType.LinearSubstitution ∧
      mt.metadata.substitute_variable = some pr.1 ∧
      mt.constraint_indices.head? = some pr.2.2 ∧
      ∃ ct, m.constraints.get? pr.2.2 = some ct ∧
        pr.2.1 = (if ct.a.is_one then ct.b else ct.a) := by
  unfold buildSubs
  have go : ∀ (rest : List PatternMatch), (∀ mt ∈ rest, mt ∈ ms) →
      ∀ acc : List (Nat × LinearCombination F × Nat),
        (∀ pr ∈ acc, ∃ mt ∈ ms,
          mt.pattern_type = PatternType.LinearSubstitution ∧
          mt.metadata.substitute_variable = some pr.1 ∧
          mt.constraint_indices.head? = some pr.2.2 ∧
          ∃ ct, m.constraints.get? pr.2.2 = some ct ∧
            pr.2.1 = (if ct.a.is_one then ct.b else ct.a)) →
      ∀ pr ∈ rest.foldl (fun subs mt =>
          if mt.pattern_type ≠ PatternType.LinearSubstitution then subs
          else
            match mt.metadata.substitute_variable with
            | none => subs
            | some v =>
                match mt.constraint_indices with
                | [] => subs
                | defining_idx :: _ =>
                    match m.constraints.get? defining_idx with
                    | none => subs
                    | some ct =>
                        insertSub subs v (if ct.a.is_one then ct.b else ct.a)
                          defining_idx) acc,
        ∃ mt ∈ ms,
          mt.pattern_type = PatternType.LinearSubstitution ∧
          mt.metadata.substitute_variable = some pr.1 ∧
          mt.constraint_indices.head? = some pr.2.2 ∧
          ∃ ct, m.constraints.get? pr.2.2 = some ct ∧
            pr.2.1 = (if ct.a.is_one then ct.b else ct.a) := by
    intro rest
    induction rest with
    | nil =>
        intro _ acc hacc pr hpr
        exact hacc pr hpr
    | cons mt tail ih =>
        intro hsubl acc hacc
        rw [List.foldl_cons]
        apply ih (fun mt' hm => hsubl mt' (List.mem_cons_of_mem _ hm))
        intro pr hpr
        by_cases hpt : mt.pattern_type = PatternType.LinearSubstitution
        · rw [if_neg (by simp [hpt])] at hpr
          cases hsv : mt.metadata.substitute_variable with
          | none =>
              simp only [hsv] at hpr
              exact hacc pr hpr
          | some v =>
              simp only [hsv] at hpr
              cases hci : mt.constraint_indices with
              | nil =>
                  simp only [hci] at hpr
                  exact hacc pr hpr
              | cons di tail2 =>
                  simp only [hci] at hpr
                  cases hget : m.constraints.get? di with
                  | none =>
                      simp only [hget] at hpr
                      exact hacc pr hpr
                  | some ct =>
                      simp only [hget] at hpr
                      unfold insertSub at hpr
                      rcases List.mem_append.mp hpr with hl | hr
                      · exact hacc pr (List.mem_of_mem_filter hl)
                      · rw [List.mem_singleton] at hr
                        subst hr
                        exact ⟨mt, hsubl mt (by simp), hpt, hsv, by rw [hci]; rfl,
                          ct, hget, rfl⟩
        · rw [if_pos (by simp [hpt])] at hpr
          exact hacc pr hpr
  exact go ms (fun _ hm => hm) [] (by simp)

/-- C2 forward direction for linear substitution: when every C-side single
variable is defined with coefficient one, every assignment with `x 0 = 1`
satisfying the original matrix satisfies the rewritten matrix. -/
theorem linsub_run_forward {m : ConstraintMatrix F} (hw : m.wellIndexed = true)
    (hunit : ∀ ct ∈ m.constraints, ct.c.is_single_variable = true →
      ∀ t ∈ ct.c.terms, t.coeff = 1)
    {x : Nat → F} (h0 : x 0 = 1) (h : m.sat x) : (run m).sat x := by
  unfold run reduce
  by_cases he : (scan m).isEmpty
  · rw [if_pos he]
    exact h
  · rw [if_neg he]
    intro ct' hct'
    obtain ⟨ct, hctfilter, ha, hb, hc⟩ := mem_reindexAux hct'
    have hctm : ct ∈ m.constraints := List.mem_of_mem_filter hctfilter
    have hsub : ∀ pr ∈ buildSubs m (scan m),
        (pr.2.1 : LinearCombination F).eval x = x pr.1 := by
      intro pr hpr
      obtain ⟨mt, hmt, -, hsv, hhead, ct0, hget, hexpr⟩ := buildSubs_mem _ pr hpr
      obtain ⟨ctd, hctdm, hor, hsingle, -, hci, hsv'⟩ := linsub_scan_mem_spec hmt
      have hvar : pr.1 = ctd.c.headVar := by
        rw [hsv] at hsv'
        exact Option.some.inj hsv'
      have hdi : pr.2.2 = ctd.index := by
        rw [hci] at hhead
        exact (by simpa using hhead : ctd.index = pr.2.2).symm
      have hct0 : ct0 = ctd := by
        have hg2 : m.constraints.get? ctd.index = some ctd :=
          wellIndexed_get?_of_mem hw hctdm
        rw [hdi, hg2, Option.some.injEq] at hget
        exact hget.symm
      subst hct0
      have hsat : ct0.a.eval x * ct0.b.eval x = ct0.c.eval x := h ct0 hctdm
      have hcval : ct0.c.eval x = x ct0.c.headVar :=
        LinearCombination.eval_of_single_unit hsingle (hunit ct0 hctdm hsingle) x
      rw [hvar, hexpr]
      rcases hor with hai | ⟨hai, hbi⟩
      · rw [if_pos hai]
        have : ct0.a.eval x = 1 := by
          rw [LinearCombination.eval_of_is_one hai x, h0]
        rw [this, one_mul] at hsat
        rw [hsat, hcval]
      · rw [if_neg (by simp [hai])]
        have : ct0.b.eval x = 1 := by
          rw [LinearCombination.eval_of_is_one hbi x, h0]
        rw [this, mul_one] at hsat
        rw [hsat, hcval]
    unfold Constraint.sat
    rw [ha, hb, hc, apply_substitutions_eval x _ hsub, apply_substitutions_eval x _ hsub,
      apply_substitutions_eval x _ hsub]
    exact h ct hctm

end LinearSubstitutionPass

/-! ### The solution-set claims -/

/-- C2 (amended): for DeduplicationPass the solution set is preserved
exactly (an assignment satisfies the matrix iff it satisfies the reduced
matrix); for ConstantFoldingPass, DeadVariablePass and
LinearSubstitutionPass every assignment satisfying the matrix satisfies the
reduced matrix, the latter provided every constraint defining a C-side
single variable gives it coefficient one.  (The reverse inclusion fails for
the last three passes; see the counterexample.)  Assignments fix variable 0
to the constant 1, and the matrix is well-indexed as produced by
`from_cs`. -/
theorem pass_solution_sets (m : ConstraintMatrix F) (x : Nat → F)
    (h0 : x 0 = 1) (hw : m.wellIndexed = true)
    (hunit : ∀ ct ∈ m.constraints, ct.c.is_single_variable = true →
      ∀ t ∈ ct.c.terms, t.coeff = 1) :
    (m.sat x ↔ (DeduplicationPass.run m).sat x) ∧
    (m.sat x → (ConstantFoldingPass.run m).sat x) ∧
    (m.sat x → (DeadVariablePass.run m).sat x) ∧
    (m.sat x → (LinearSubstitutionPass.run m).sat x) :=
  ⟨DeduplicationPass.solution_set_preserved hw x,
   fun h => ConstantFoldingPass.constfold_run_forward h,
   fun h => DeadVariablePass.deadvar_run_forward h,
   fun h => LinearSubstitutionPass.linsub_run_forward hw hunit h0 h⟩

/-- The matrix `{5 · 3 = 15 + 3·x₁}` over `F₁₀₁`: its only constraint has
constant A and B sides but a variable term on the C side. -/
def cexMatrix : ConstraintMatrix (ZMod 101) :=
  ⟨[⟨0, ⟨[⟨0, 5⟩]⟩, ⟨[⟨0, 3⟩]⟩, ⟨[⟨0, 15⟩, ⟨1, 3⟩]⟩⟩], 1, 1, 2⟩

/-- C2 as stated is false: ConstantFoldingPass compares the constant product
only against the constant part of the C side, so it removes
`5 · 3 = 15 + 3·x₁`; the all-ones assignment satisfies the reduced matrix
but violates the original one, hence the solution sets differ. -/
theorem pass_solution_sets_cex :
    (fun _ => (1 : ZMod 101)) 0 = 1 ∧
    cexMatrix.wellIndexed = true ∧
    (ConstantFoldingPass.run cexMatrix).sat (fun _ => (1 : ZMod 101)) ∧
    ¬ cexMatrix.sat (fun _ => (1 : ZMod 101)) := by
  refine ⟨rfl, by decide, ?_, ?_⟩ <;> decide

theorem pass_solution_sets_witness :
    ((fun _ => (1 : ZMod 101)) 0 = 1 ∧ cexMatrix.wellIndexed = true ∧
      (∀ ct ∈ cexMatrix.constraints, ct.c.is_single_variable = true →
        ∀ t ∈ ct.c.terms, t.coeff = 1)) ∧
    ((cexMatrix.sat (fun _ => (1 : ZMod 101)) ↔
        (DeduplicationPass.run cexMatrix).sat (fun _ => (1 : ZMod 101))) ∧
      (cexMatrix.sat (fun _ => (1 : ZMod 101)) →
        (ConstantFoldingPass.run cexMatrix).sat (fun _ => (1 : ZMod 101))) ∧
      (cexMatrix.sat (fun _ => (1 : ZMod 101)) →
        (DeadVariablePass.run cexMatrix).sat (fun _ => (1 : ZMod 101))) ∧
      (cexMatrix.sat (fun _ => (1 : ZMod 101)) →
        (LinearSubstitutionPass.run cexMatrix).sat (fun _ => (1 : ZMod 101)))) :=
  ⟨⟨rfl, by decide, by decide⟩,
   pass_solution_sets cexMatrix (fun _ => (1 : ZMod 101)) rfl (by decide) (by decide)⟩

/-- The matrix `{5 · 3 = 15, 5 · 3 = 16}` over `F₁₀₁` (the spec's constant
folding example). -/
def w9Matrix : ConstraintMatrix (ZMod 101) :=
  ⟨[⟨0, ⟨[⟨0, 5⟩]⟩, ⟨[⟨0, 3⟩]⟩, ⟨[⟨0, 15⟩]⟩⟩,
    ⟨1, ⟨[⟨0, 5⟩]⟩, ⟨[⟨0, 3⟩]⟩, ⟨[⟨0, 16⟩]⟩⟩], 1, 0, 2⟩

/-- The unsatisfied constant constraint `5 · 3 = 16` of `w9Matrix`. -/
def w9Bad : Constraint (ZMod 101) := ⟨1, ⟨[⟨0, 5⟩]⟩, ⟨[⟨0, 3⟩]⟩, ⟨[⟨0, 16⟩]⟩⟩

/-- The satisfied constant constraint `5 · 3 = 15` of `w9Matrix`. -/
def w9Good : Constraint (ZMod 101) := ⟨0, ⟨[⟨0, 5⟩]⟩, ⟨[⟨0, 3⟩]⟩, ⟨[⟨0, 15⟩]⟩⟩

theorem constant_spec_witness :
    (w9Matrix.wellIndexed = true ∧ w9Bad ∈ w9Matrix.constraints ∧
      w9Bad.is_constant = true ∧ w9Good ∈ w9Matrix.constraints ∧
      w9Good.is_constant = true) ∧
    (((∃ ct' ∈ (ConstantFoldingPass.run w9Matrix).constraints,
        ct'.a = w9Bad.a ∧ ct'.b = w9Bad.b ∧ ct'.c = w9Bad.c) ↔
      ¬ compute_constant_value w9Bad.a * compute_constant_value w9Bad.b =
          compute_constant_value w9Bad.c) ∧
      (¬ compute_constant_value w9Bad.a * compute_constant_value w9Bad.b =
          compute_constant_value w9Bad.c →
        ∃ mt ∈ ConstantFoldingPass.scan w9Matrix,
          mt.constraint_indices = [w9Bad.index] ∧ mt.estimated_reduction = 0)) ∧
    ((∃ ct' ∈ (ConstantFoldingPass.run w9Matrix).constraints,
        ct'.a = w9Good.a ∧ ct'.b = w9Good.b ∧ ct'.c = w9Good.c) ↔
      ¬ compute_constant_value w9Good.a * compute_constant_value w9Good.b =
          compute_constant_value w9Good.c) :=
  ⟨⟨by decide, by decide, by decide, by decide, by decide⟩,
   ConstantFoldingPass.constant_spec w9Matrix (by decide) w9Bad (by decide) (by decide),
   (ConstantFoldingPass.constant_spec w9Matrix (by decide) w9Good (by decide)
     (by decide)).1⟩

end R1CS

end InventoryPrivacy
